import Mathlib

/-!
Verification of the `rdu` disk-usage browser: a shallow embedding of the
tree builder (`src/scanner.rs`, `scan_dir`) and the navigation/sort state
machine (`src/app.rs`, `App`), with theorems settling the spec claims.

Modelling conventions:
* Filesystem paths are component lists (`List String`); `Path::parent`
  drops the last component and is `none` on the empty path.
* The `Rc<RefCell<FileNode>>` graph is embedded as an arena: `Tree.nodes`
  is the list of all allocated nodes (index = allocation order) and child
  links / navigation handles are arena indices.  `HashMap<PathBuf, Rc<..>>`
  becomes an association list where an insert prepends (most recent wins),
  matching `HashMap::insert` overwrite semantics.
* `u64`/`usize` become `Nat` (no overflow is relevant to the claims).
* `SystemTime` becomes `Nat`; `Option<SystemTime>` with Rust's derived
  order (`None < Some`) becomes `Option Nat` compared via `optKey`.
* Rust's `sort_by` (a stable sort) is embedded as a stable insertion sort
  (`stableSort`); the walk phase of `scan_dir` is I/O, so the collected
  entry list and walk-error count are parameters of `buildTree`.
-/

namespace Rdu

/-- One collected walk entry of `scan_dir`:
`entries: Vec<(PathBuf, u64, bool, Option<SystemTime>)>`. -/
structure Entry where
  path : List String
  size : Nat
  isDir : Bool
  mtime : Option Nat
deriving Repr, DecidableEq

/-- `Path::parent`: drop the final component; `none` for the empty path. -/
def parentOf (p : List String) : Option (List String) :=
  match p with
  | [] => none
  | _ :: _ => some p.dropLast

/-- `path.file_name().unwrap_or_default()`: last component or `""`. -/
def lastComponent (p : List String) : String :=
  (p.getLast?).getD ""

/-- `FileNode` from `src/file_node.rs`, with children as arena indices. -/
structure FileNode where
  name : String
  path : List String
  size : Nat
  isDir : Bool
  children : List Nat
  errorCount : Nat
  modifiedTime : Option Nat
deriving Repr, DecidableEq

/-- `FileNode::new`: empty children, zero `error_count`. -/
def FileNode.new (path : List String) (name : String) (size : Nat)
    (isDir : Bool) (mtime : Option Nat) : FileNode :=
  { name := name, path := path, size := size, isDir := isDir,
    children := [], errorCount := 0, modifiedTime := mtime }

/-- `FileNode::child_count`. -/
def FileNode.childCount (n : FileNode) : Nat := n.children.length

/-- Arena of allocated nodes plus the `HashMap<PathBuf, Rc<..>>` of
`scan_dir`, as an association list (head = most recent insert). -/
structure Tree where
  nodes : List FileNode
  pathMap : List (List String × Nat)
deriving Repr, DecidableEq

/-- `HashMap::get`: first (most recent) binding of the key. -/
def lookupPath (m : List (List String × Nat)) (p : List String) : Option Nat :=
  match m with
  | [] => none
  | (q, i) :: rest => if q = p then some i else lookupPath rest p

/-- Replace the node at index `i` by `f` applied to it (no-op out of range);
models a `borrow_mut` update of one `Rc<RefCell<FileNode>>`. -/
def updateAt (l : List FileNode) (i : Nat) (f : FileNode → FileNode) :
    List FileNode :=
  match l, i with
  | [], _ => []
  | x :: xs, 0 => f x :: xs
  | x :: xs, Nat.succ j => x :: updateAt xs j f

/-- Fallback node used to totalise arena dereference (`Rc` deref in Rust
cannot fail; all dereferenced indices are in range). -/
def defFileNode : FileNode := FileNode.new [] "" 0 false none

/-- Dereference an arena index. -/
def nodeAt (t : Tree) (i : Nat) : FileNode := (t.nodes.get? i).getD defFileNode

/-- Forward pass of `scan_dir` for one entry: create the node, insert it
into the map, and — if the parent path is mapped — push the node onto the
parent's children and add the entry size to the parent when it is not a
directory. -/
def addEntry (t : Tree) (e : Entry) : Tree :=
  let idx := t.nodes.length
  let node := FileNode.new e.path (lastComponent e.path) e.size e.isDir e.mtime
  let nodes := t.nodes ++ [node]
  let pmap := (e.path, idx) :: t.pathMap
  match parentOf e.path with
  | none => { nodes := nodes, pathMap := pmap }
  | some pp =>
    match lookupPath pmap pp with
    | none => { nodes := nodes, pathMap := pmap }
    | some pidx =>
      { nodes := updateAt nodes pidx (fun pn =>
          { pn with children := pn.children ++ [idx],
                    size := pn.size + (if e.isDir then 0 else e.size) }),
        pathMap := pmap }

/-- Reverse pass of `scan_dir` for one entry: if it is a directory, add its
now-accumulated size to its parent's size (when both are mapped). -/
def propEntry (t : Tree) (e : Entry) : Tree :=
  if e.isDir then
    match lookupPath t.pathMap e.path with
    | none => t
    | some idx =>
      match t.nodes.get? idx with
      | none => t
      | some node =>
        match parentOf e.path with
        | none => t
        | some pp =>
          match lookupPath t.pathMap pp with
          | none => t
          | some pidx =>
            { t with nodes := updateAt t.nodes pidx (fun pn =>
                { pn with size := pn.size + node.size }) }
  else t

/-- Stable insert: place `e` before the first element `x` with
`lt x e = false`; equal elements already present stay in front only when
strictly smaller, so earlier-arriving equals keep priority. -/
def insertStable (lt : α → α → Bool) (e : α) : List α → List α
  | [] => [e]
  | x :: xs => if lt x e then x :: insertStable lt e xs else e :: x :: xs

/-- Stable insertion sort, the embedding of Rust's stable `sort_by`. -/
def stableSort (lt : α → α → Bool) : List α → List α
  | [] => []
  | e :: es => insertStable lt e (stableSort lt es)

/-- `sort_by(|a, b| a.0.components().count().cmp(&b.0.components().count()))`:
strict-before predicate comparing path depth. -/
def depthLt (a b : Entry) : Bool := a.path.length < b.path.length

/-- The root node created by `scan_dir` (size 0, `is_dir` true), with the
walk error count attached. -/
def rootNodeOf (rootPath : List String) (rootMtime : Option Nat)
    (errCount : Nat) : FileNode :=
  { FileNode.new rootPath (lastComponent rootPath) 0 true rootMtime with
    errorCount := errCount }

/-- The tree state before the entry passes: just the root, mapped at its
path. -/
def initTree (rootPath : List String) (rootMtime : Option Nat)
    (errCount : Nat) : Tree :=
  { nodes := [rootNodeOf rootPath rootMtime errCount],
    pathMap := [(rootPath, 0)] }

/-- The pure tail of `scan_dir`: given the root path, the root's stat
mtime, the walk-phase error count and the collected entries, build the
tree (root node at arena index 0). -/
def buildTree (rootPath : List String) (rootMtime : Option Nat)
    (errCount : Nat) (entries : List Entry) : Tree :=
  let t0 : Tree := initTree rootPath rootMtime errCount
  let sorted := stableSort depthLt entries
  let t1 := sorted.foldl addEntry t0
  (sorted.reverse).foldl propEntry t1

/-- Size of the node registered at a path (observation used to compare
builds "keyed by path"). -/
def sizeAtPath (t : Tree) (p : List String) : Option Nat :=
  (lookupPath t.pathMap p).bind (fun i => (t.nodes.get? i).map (·.size))

/-- Error count of the node registered at a path. -/
def errAtPath (t : Tree) (p : List String) : Option Nat :=
  (lookupPath t.pathMap p).bind (fun i => (t.nodes.get? i).map (·.errorCount))

/-! ### Sort engine and navigation state machine (`src/sort.rs`, `src/app.rs`) -/

/-- `SortMode` from `src/sort.rs`. -/
inductive SortMode
  | size
  | modifiedTime
  | itemCount
deriving Repr, DecidableEq

/-- `SortMode::name`. -/
def SortMode.name : SortMode → String
  | .size => "size"
  | .modifiedTime => "mtime"
  | .itemCount => "count"

/-- `u64::cmp` / `usize::cmp`. -/
def natCmp (a b : Nat) : Ordering :=
  if a < b then .lt else if a = b then .eq else .gt

/-- Order-embedding of `Option<SystemTime>` under Rust's derived order
(`None` least) into `Nat`: comparisons agree with `Option::cmp`. -/
def optKey : Option Nat → Nat
  | none => 0
  | some t => t + 1

/-- The comparator body of `App::sort_current_view` for one mode. -/
def nodeCmp (mode : SortMode) (a b : FileNode) : Ordering :=
  match mode with
  | .size => natCmp a.size b.size
  | .modifiedTime => natCmp (optKey a.modifiedTime) (optKey b.modifiedTime)
  | .itemCount => natCmp a.childCount b.childCount

/-- The sort key each mode compares, read off the arena. -/
def keyAt (t : Tree) (mode : SortMode) (i : Nat) : Nat :=
  match mode with
  | .size => (nodeAt t i).size
  | .modifiedTime => optKey (nodeAt t i).modifiedTime
  | .itemCount => (nodeAt t i).childCount

/-- Strict-before predicate of `sort_current_view` on child indices:
compare, reverse when descending, and `a` precedes `b` iff the result is
`Less`. -/
def childLt (t : Tree) (mode : SortMode) (ascending : Bool) (i j : Nat) :
    Bool :=
  let c := nodeCmp mode (nodeAt t i) (nodeAt t j)
  (if ascending then c else c.swap) = .lt

/-- Application state (`App` from `src/app.rs`); `root`, `current_node`
and `path_history` hold arena indices, `state : ListState` is the
`selected` option. -/
structure App where
  tree : Tree
  root : Nat
  currentNode : Nat
  pathHistory : List Nat
  selected : Option Nat
  args : Unit
  statusMessage : Option String
  showHelp : Bool
  sortMode : SortMode
  sortAscending : Bool
deriving Repr, DecidableEq

/-- `current_children` (the child index list of the current node). -/
def App.currentChildren (a : App) : List Nat :=
  (nodeAt a.tree a.currentNode).children

/-- `current_path`. -/
def App.currentPath (a : App) : List String :=
  (nodeAt a.tree a.currentNode).path

/-- `current_total_size`. -/
def App.currentTotalSize (a : App) : Nat :=
  ((App.currentChildren a).map (fun c => (nodeAt a.tree c).size)).sum

/-- `App::sort_current_view`: stable-sort the current node's children in
place by the active mode and direction. -/
def App.sortCurrentView (a : App) : App :=
  let lt := childLt a.tree a.sortMode a.sortAscending
  let nodes := updateAt a.tree.nodes a.currentNode
    (fun n => { n with children := stableSort lt n.children })
  { a with tree := { a.tree with nodes := nodes } }

/-- The status string written by every `toggle_sort_by_*`. -/
def sortStatus (mode : SortMode) (ascending : Bool) : String :=
  "Sort: " ++ mode.name ++ " " ++ (if ascending then "asc" else "desc")

/-- `App::toggle_sort_by_size`. -/
def App.toggleSortBySize (a : App) : App :=
  let a :=
    if a.sortMode = SortMode.size then
      { a with sortAscending := !a.sortAscending }
    else
      { a with sortMode := SortMode.size, sortAscending := false }
  let a := App.sortCurrentView a
  { a with statusMessage := some (sortStatus a.sortMode a.sortAscending) }

/-- `App::toggle_sort_by_mtime`. -/
def App.toggleSortByMtime (a : App) : App :=
  let a :=
    if a.sortMode = SortMode.modifiedTime then
      { a with sortAscending := !a.sortAscending }
    else
      { a with sortMode := SortMode.modifiedTime, sortAscending := false }
  let a := App.sortCurrentView a
  { a with statusMessage := some (sortStatus a.sortMode a.sortAscending) }

/-- `App::toggle_sort_by_count`. -/
def App.toggleSortByCount (a : App) : App :=
  let a :=
    if a.sortMode = SortMode.itemCount then
      { a with sortAscending := !a.sortAscending }
    else
      { a with sortMode := SortMode.itemCount, sortAscending := false }
  let a := App.sortCurrentView a
  { a with statusMessage := some (sortStatus a.sortMode a.sortAscending) }

/-- Dispatch to the toggle function of a given dimension. -/
def toggleOf (m : SortMode) : App → App :=
  match m with
  | .size => App.toggleSortBySize
  | .modifiedTime => App.toggleSortByMtime
  | .itemCount => App.toggleSortByCount

/-- `App::next` (wraparound move down). -/
def App.next (a : App) : App :=
  let children := App.currentChildren a
  let i :=
    match a.selected with
    | some i =>
      if !children.isEmpty && decide (i ≥ children.length - 1) then 0
      else i + 1
    | none => 0
  if children.isEmpty then a else { a with selected := some i }

/-- `App::previous` (wraparound move up). -/
def App.previous (a : App) : App :=
  let children := App.currentChildren a
  let i :=
    match a.selected with
    | some i =>
      if i = 0 then (if !children.isEmpty then children.length - 1 else 0)
      else i - 1
    | none => 0
  if children.isEmpty then a else { a with selected := some i }

/-- `App::page_down` (page size 10, clamped to the last index). -/
def App.pageDown (a : App) : App :=
  let children := App.currentChildren a
  if children.isEmpty then a
  else
    let i :=
      match a.selected with
      | some i => min (i + 10) (children.length - 1)
      | none => 0
    { a with selected := some i }

/-- `App::page_up` (page size 10, saturating at 0). -/
def App.pageUp (a : App) : App :=
  let children := App.currentChildren a
  if children.isEmpty then a
  else
    let i :=
      match a.selected with
      | some i => i - 10
      | none => 0
    { a with selected := some i }

/-- `App::go_to_first`. -/
def App.goToFirst (a : App) : App :=
  let children := App.currentChildren a
  if !children.isEmpty then { a with selected := some 0 } else a

/-- `App::go_to_last`. -/
def App.goToLast (a : App) : App :=
  let children := App.currentChildren a
  if !children.isEmpty then { a with selected := some (children.length - 1) }
  else a

/-- `App::enter_dir`: on a selected, in-range, directory child push the
current handle, descend, re-sort the new view and reset the selection. -/
def App.enterDir (a : App) : App :=
  let children := App.currentChildren a
  match a.selected with
  | none => a
  | some selectedIdx =>
    if selectedIdx < children.length then
      match children.get? selectedIdx with
      | none => a
      | some childIdx =>
        if (nodeAt a.tree childIdx).isDir then
          let a' := { a with pathHistory := a.pathHistory ++ [a.currentNode],
                             currentNode := childIdx }
          let a' := App.sortCurrentView a'
          let newChildren := App.currentChildren a'
          if newChildren.isEmpty then { a' with selected := none }
          else { a' with selected := some 0 }
        else a
    else a

/-- `App::go_up`: pop the history into `current`, re-sort, reset the
selection. -/
def App.goUp (a : App) : App :=
  match a.pathHistory.getLast? with
  | none => a
  | some parent =>
    let a' := { a with pathHistory := a.pathHistory.dropLast,
                       currentNode := parent }
    let a' := App.sortCurrentView a'
    let children := App.currentChildren a'
    if children.isEmpty then { a' with selected := none }
    else { a' with selected := some 0 }

/-- Shift one node's child indices by `k` (re-indexing a freshly built
arena so it can be appended to the application arena). -/
def shiftNode (k : Nat) (n : FileNode) : FileNode :=
  { n with children := n.children.map (· + k) }

/-- `App::refresh`: re-scan the current path (the scan's collected entries,
error count and root mtime are parameters, since the walk is I/O), then
replace the current node's `children`, `size` and `error_count` with the
freshly built root's values, re-sort and reset the selection.  The fresh
nodes are appended to the arena at offset `k`, which models the new `Rc`
allocations of `scan_dir`. -/
def App.refresh (a : App) (entries : List Entry) (errCount : Nat)
    (rootMtime : Option Nat) : App :=
  let a := { a with statusMessage := some "Rescanning..." }
  let path := App.currentPath a
  let newTree := buildTree path rootMtime errCount entries
  let k := a.tree.nodes.length
  let newRoot := shiftNode k (nodeAt newTree 0)
  let nodes := a.tree.nodes ++ newTree.nodes.map (shiftNode k)
  let nodes := updateAt nodes a.currentNode (fun cur =>
    { cur with children := newRoot.children,
               size := newRoot.size,
               errorCount := newRoot.errorCount })
  let a := { a with tree := { a.tree with nodes := nodes } }
  let a := App.sortCurrentView a
  let children := App.currentChildren a
  let a :=
    if children.isEmpty then { a with selected := none }
    else { a with selected := some 0 }
  { a with statusMessage := some "Refresh complete!" }

/-! ### Basic lemmas: arena updates and map lookups -/

theorem updateAt_length (l : List FileNode) (i : Nat) (f : FileNode → FileNode) :
    (updateAt l i f).length = l.length := by
  induction l generalizing i with
  | nil => rfl
  | cons x xs ih =>
    cases i with
    | zero => rfl
    | succ j => simp [updateAt, ih]

theorem updateAt_get?_ne (l : List FileNode) (i j : Nat)
    (f : FileNode → FileNode) (h : i ≠ j) :
    (updateAt l i f).get? j = l.get? j := by
  induction l generalizing i j with
  | nil => rfl
  | cons x xs ih =>
    cases i with
    | zero =>
      cases j with
      | zero => exact absurd rfl h
      | succ j' => rfl
    | succ i' =>
      cases j with
      | zero => rfl
      | succ j' =>
        simpa [updateAt] using ih i' j' (fun hc => h (by rw [hc]))

theorem updateAt_get?_eq (l : List FileNode) (i : Nat)
    (f : FileNode → FileNode) :
    (updateAt l i f).get? i = (l.get? i).map f := by
  induction l generalizing i with
  | nil => rfl
  | cons x xs ih =>
    cases i with
    | zero => rfl
    | succ j => simpa [updateAt] using ih j

theorem get?_append_left {α : Type} {l l' : List α} {i : Nat}
    (h : i < l.length) : (l ++ l').get? i = l.get? i := by
  rw [List.get?_append h]

/-! ### Stable sort lemmas -/

theorem insertStable_perm (lt : α → α → Bool) (e : α) (l : List α) :
    List.Perm (insertStable lt e l) (e :: l) := by
  induction l with
  | nil => exact List.Perm.refl _
  | cons x xs ih =>
    by_cases h : lt x e = true
    · simp only [insertStable, h, if_true]
      exact ((ih.cons x).trans (List.Perm.swap e x xs))
    · simp only [insertStable, h]
      simp [h]

theorem stableSort_perm (lt : α → α → Bool) (l : List α) :
    List.Perm (stableSort lt l) l := by
  induction l with
  | nil => exact List.Perm.refl _
  | cons e es ih =>
    exact (insertStable_perm lt e (stableSort lt es)).trans (ih.cons e)

theorem stableSort_length (lt : α → α → Bool) (l : List α) :
    (stableSort lt l).length = l.length :=
  (stableSort_perm lt l).length_eq

theorem mem_stableSort (lt : α → α → Bool) (l : List α) (x : α) :
    x ∈ stableSort lt l ↔ x ∈ l :=
  (stableSort_perm lt l).mem_iff

theorem stableSort_isEmpty (lt : α → α → Bool) (l : List α) :
    (stableSort lt l).isEmpty = l.isEmpty := by
  cases l with
  | nil => rfl
  | cons x xs =>
    have h := stableSort_length lt (x :: xs)
    cases hs : stableSort lt (x :: xs) with
    | nil => rw [hs] at h; simp at h
    | cons y ys => rfl

theorem insertStable_eq_spanParts (lt : α → α → Bool) (e : α) (l : List α) :
    insertStable lt e l =
      l.takeWhile (fun x => lt x e) ++ e :: l.dropWhile (fun x => lt x e) := by
  induction l with
  | nil => rfl
  | cons x xs ih =>
    by_cases h : lt x e = true
    · simp [insertStable, List.takeWhile, List.dropWhile, h, ih]
    · simp [insertStable, List.takeWhile, List.dropWhile, h]

theorem stableSort_of_sorted (lt : α → α → Bool) (l : List α)
    (h : l.Pairwise (fun a b => lt b a = false)) : stableSort lt l = l := by
  induction l with
  | nil => rfl
  | cons e es ih =>
    rw [List.pairwise_cons] at h
    rw [stableSort, ih h.2]
    cases es with
    | nil => rfl
    | cons x xs =>
      have hx : lt x e = false := h.1 x (List.mem_cons_self x xs)
      simp [insertStable, hx]

/-- Head extraction for the descending stable sort: a maximal element that
precedes all elements of equal key sorts to the front. -/
theorem stableSort_desc_extract (key : α → Nat) (e : α) :
    ∀ M₁ M₂ : List α, (∀ x ∈ M₁, key x < key e) → (∀ x ∈ M₂, key x ≤ key e) →
    stableSort (fun a b => decide (key b < key a)) (M₁ ++ e :: M₂) =
      e :: stableSort (fun a b => decide (key b < key a)) (M₁ ++ M₂) := by
  intro M₁
  induction M₁ with
  | nil =>
    intro M₂ _ h2
    simp only [List.nil_append, stableSort]
    cases hs : stableSort (fun a b => decide (key b < key a)) M₂ with
    | nil => rfl
    | cons x xs =>
      have hx : x ∈ M₂ := by
        rw [← mem_stableSort (fun a b => decide (key b < key a)) M₂ x, hs]
        exact List.mem_cons_self x xs
      have : decide (key e < key x) = false := by
        simp only [decide_eq_false_iff_not, not_lt]
        exact h2 x hx
      simp [insertStable, this]
  | cons x M₁' ih =>
    intro M₂ h1 h2
    have hx : key x < key e := h1 x (List.mem_cons_self x M₁')
    have ih' := ih M₂ (fun y hy => h1 y (List.mem_cons_of_mem x hy)) h2
    simp only [List.cons_append, stableSort, List.append_eq]
    rw [ih']
    simp [insertStable, hx]

/-- Sort involution: stable-sorting a descending-ordered list ascending and
then descending restores it exactly, ties included. -/
theorem stableSort_involution (key : α → Nat) (L : List α)
    (h : L.Pairwise (fun a b => key b ≤ key a)) :
    stableSort (fun a b => decide (key b < key a))
      (stableSort (fun a b => decide (key a < key b)) L) = L := by
  induction L with
  | nil => rfl
  | cons e L' ih =>
    rw [List.pairwise_cons] at h
    have he : ∀ x ∈ L', key x ≤ key e := h.1
    rw [stableSort, insertStable_eq_spanParts]
    set SA := stableSort (fun a b => decide (key a < key b)) L' with hSA
    have h1 : ∀ x ∈ SA.takeWhile (fun x => decide (key x < key e)),
        key x < key e := by
      intro x hx
      have := List.mem_takeWhile_imp hx
      simpa using this
    have h2 : ∀ x ∈ SA.dropWhile (fun x => decide (key x < key e)),
        key x ≤ key e := by
      intro x hx
      have hxm : x ∈ SA := (List.dropWhile_sublist _).mem hx
      rw [hSA, mem_stableSort] at hxm
      exact he x hxm
    rw [stableSort_desc_extract key e _ _ h1 h2,
        List.takeWhile_append_dropWhile, ih h.2]

/-! ### The child comparator is key-based -/

theorem natCmp_lt_iff (a b : Nat) : natCmp a b = Ordering.lt ↔ a < b := by
  unfold natCmp
  by_cases h : a < b
  · simp [h]
  · by_cases h2 : a = b <;> simp [h, h2]

theorem natCmp_gt_iff (a b : Nat) : natCmp a b = Ordering.gt ↔ b < a := by
  unfold natCmp
  by_cases h : a < b
  · simp [h]
    omega
  · by_cases h2 : a = b <;> simp [h, h2] <;> omega

theorem ordSwap_lt_iff (c : Ordering) : c.swap = Ordering.lt ↔ c = Ordering.gt := by
  cases c <;> simp [Ordering.swap]

theorem nodeCmp_eq_natCmp (t : Tree) (m : SortMode) (i j : Nat) :
    nodeCmp m (nodeAt t i) (nodeAt t j) =
      natCmp (keyAt t m i) (keyAt t m j) := by
  cases m <;> rfl

theorem childLt_asc (t : Tree) (m : SortMode) :
    childLt t m true = fun i j => decide (keyAt t m i < keyAt t m j) := by
  funext i j
  simp only [childLt, if_true]
  rw [nodeCmp_eq_natCmp]
  exact decide_eq_decide.mpr (natCmp_lt_iff _ _)

theorem childLt_desc (t : Tree) (m : SortMode) :
    childLt t m false = fun i j => decide (keyAt t m j < keyAt t m i) := by
  funext i j
  simp only [childLt, if_false]
  rw [nodeCmp_eq_natCmp]
  exact decide_eq_decide.mpr ((ordSwap_lt_iff _).trans (natCmp_gt_iff _ _))

/-! ### `sort_current_view` structural lemmas -/

theorem sortCurrentView_nodeAt_ne (a : App) (i : Nat)
    (h : i ≠ a.currentNode) :
    nodeAt (App.sortCurrentView a).tree i = nodeAt a.tree i := by
  unfold nodeAt App.sortCurrentView
  simp only
  rw [updateAt_get?_ne _ _ _ _ (fun hc => h hc.symm)]

/-- Replace only the `children` field of a node. -/
def withChildren (n : FileNode) (c : List Nat) : FileNode :=
  { n with children := c }

theorem sortCurrentView_nodeAt_self (a : App) :
    nodeAt (App.sortCurrentView a).tree a.currentNode =
      withChildren (nodeAt a.tree a.currentNode)
        (stableSort (childLt a.tree a.sortMode a.sortAscending)
          (nodeAt a.tree a.currentNode).children) := by
  unfold nodeAt App.sortCurrentView withChildren
  simp only [updateAt_get?_eq]
  cases h : a.tree.nodes.get? a.currentNode <;>
    simp [defFileNode, FileNode.new, stableSort]

theorem sortCurrentView_currentChildren (a : App) :
    App.currentChildren (App.sortCurrentView a) =
      stableSort (childLt a.tree a.sortMode a.sortAscending)
        (App.currentChildren a) := by
  unfold App.currentChildren
  rw [show (App.sortCurrentView a).currentNode = a.currentNode from rfl,
    sortCurrentView_nodeAt_self]
  rfl

theorem keyAt_sortCurrentView (a : App) (m : SortMode) (i : Nat) :
    keyAt (App.sortCurrentView a).tree m i = keyAt a.tree m i := by
  by_cases h : i = a.currentNode
  · subst h
    cases m <;>
      simp [keyAt, sortCurrentView_nodeAt_self, FileNode.childCount,
        withChildren, stableSort_length]
  · cases m <;> simp [keyAt, sortCurrentView_nodeAt_ne a i h]

/-! ### Toggle normal forms -/

/-- Set only the status message. -/
def withStatus (a : App) (s : String) : App := { a with statusMessage := some s }

/-- Set only the sort direction. -/
def withAsc (a : App) (b : Bool) : App := { a with sortAscending := b }

/-- Set sort mode and direction. -/
def withMode (a : App) (m : SortMode) (b : Bool) : App :=
  { a with sortMode := m, sortAscending := b }

theorem toggleOf_same (a : App) (m : SortMode) (hm : a.sortMode = m) :
    toggleOf m a =
      withStatus (App.sortCurrentView (withAsc a (!a.sortAscending)))
        (sortStatus m (!a.sortAscending)) := by
  cases m <;>
    simp [toggleOf, App.toggleSortBySize, App.toggleSortByMtime,
      App.toggleSortByCount, hm, withStatus, withAsc, App.sortCurrentView]

theorem toggleOf_diff (a : App) (m : SortMode) (hm : a.sortMode ≠ m) :
    toggleOf m a =
      withStatus (App.sortCurrentView (withMode a m false))
        (sortStatus m false) := by
  cases m <;>
    simp [toggleOf, App.toggleSortBySize, App.toggleSortByMtime,
      App.toggleSortByCount, hm, withStatus, withMode, App.sortCurrentView]

/-- Claim C6: toggling to a different dimension forces that dimension with
descending order; toggling the active dimension flips the direction; in
both cases the sort is re-applied (with the new flags) to the current
children. -/
theorem toggle_sort_switch_default (a : App) (m : SortMode) :
    ((a.sortMode = m) →
      (toggleOf m a).sortMode = m ∧
      (toggleOf m a).sortAscending = !a.sortAscending) ∧
    ((a.sortMode ≠ m) →
      (toggleOf m a).sortMode = m ∧ (toggleOf m a).sortAscending = false) ∧
    App.currentChildren (toggleOf m a) =
      stableSort (childLt a.tree m (toggleOf m a).sortAscending)
        (App.currentChildren a) := by
  by_cases hm : a.sortMode = m
  · rw [toggleOf_same a m hm]
    refine ⟨fun _ => ⟨hm, rfl⟩, fun h => absurd hm h, ?_⟩
    have h := sortCurrentView_currentChildren (withAsc a (!a.sortAscending))
    rw [show App.currentChildren
        (withStatus (App.sortCurrentView (withAsc a (!a.sortAscending)))
          (sortStatus m (!a.sortAscending))) =
        App.currentChildren
          (App.sortCurrentView (withAsc a (!a.sortAscending))) from rfl, h]
    rw [show (withAsc a (!a.sortAscending)).tree = a.tree from rfl,
      show (withAsc a (!a.sortAscending)).sortMode = a.sortMode from rfl,
      show (withAsc a (!a.sortAscending)).sortAscending = !a.sortAscending
        from rfl, hm]
    rfl
  · rw [toggleOf_diff a m hm]
    refine ⟨fun h => absurd h hm, fun _ => ⟨rfl, rfl⟩, ?_⟩
    have h := sortCurrentView_currentChildren (withMode a m false)
    rw [show App.currentChildren
        (withStatus (App.sortCurrentView (withMode a m false))
          (sortStatus m false)) =
        App.currentChildren (App.sortCurrentView (withMode a m false))
        from rfl, h]
    rfl

/-- Claim C5: with the children ordered descending by the active dimension,
toggling that dimension twice first sorts ascending, then descending, and
restores the original order exactly (ties included). -/
theorem toggle_same_twice_restores (a : App) (m : SortMode)
    (hm : a.sortMode = m) (hasc : a.sortAscending = false)
    (hsorted : (App.currentChildren a).Pairwise
      (fun i j => keyAt a.tree m j ≤ keyAt a.tree m i)) :
    App.currentChildren (toggleOf m (toggleOf m a)) = App.currentChildren a ∧
    (toggleOf m a).sortAscending = true ∧
    (toggleOf m (toggleOf m a)).sortAscending = false ∧
    (toggleOf m (toggleOf m a)).sortMode = m := by
  have hb1 : toggleOf m a =
      withStatus (App.sortCurrentView (withAsc a true)) (sortStatus m true) := by
    rw [toggleOf_same a m hm, hasc]
    rfl
  have hb1m : (toggleOf m a).sortMode = m := by rw [hb1]; exact hm
  have hb1a : (toggleOf m a).sortAscending = true := by rw [hb1]; rfl
  have hb2 : toggleOf m (toggleOf m a) =
      withStatus (App.sortCurrentView (withAsc (toggleOf m a) false))
        (sortStatus m false) := by
    rw [toggleOf_same (toggleOf m a) m hb1m, hb1a]
    rfl
  have h1 : App.currentChildren (toggleOf m a) =
      stableSort (childLt a.tree a.sortMode true) (App.currentChildren a) := by
    rw [hb1]
    exact sortCurrentView_currentChildren (withAsc a true)
  rw [hm] at h1
  have h2 : App.currentChildren (toggleOf m (toggleOf m a)) =
      stableSort (childLt (toggleOf m a).tree (toggleOf m a).sortMode false)
        (App.currentChildren (toggleOf m a)) := by
    rw [hb2]
    exact sortCurrentView_currentChildren (withAsc (toggleOf m a) false)
  rw [hb1m] at h2
  refine ⟨?_, hb1a, ?_, ?_⟩
  · have hkey : ∀ i, keyAt (toggleOf m a).tree m i = keyAt a.tree m i := by
      intro i
      rw [hb1]
      exact keyAt_sortCurrentView (withAsc a true) m i
    have hltD : childLt (toggleOf m a).tree m false =
        fun i j => decide (keyAt a.tree m j < keyAt a.tree m i) := by
      rw [childLt_desc]
      funext i j
      rw [hkey i, hkey j]
    rw [h2, h1, hltD, childLt_asc]
    exact stableSort_involution (keyAt a.tree m) (App.currentChildren a) hsorted
  · rw [hb2]; rfl
  · rw [hb2]; exact hb1m

/-! ### Navigation: panic-checked variants and normal forms

The only operations in the navigation methods that can panic in Rust are
the `usize` subtractions `children.len() - 1` and `i - 1` (debug-mode
underflow); indexing uses the non-panicking `Vec::get`.  The checked
variants below replace each subtraction site by `checkedSub`, which fails
instead of truncating, and otherwise mirror the source exactly. -/

/-- Checked `usize` subtraction: `none` models a Rust underflow panic. -/
def checkedSub (a b : Nat) : Option Nat :=
  if b ≤ a then some (a - b) else none

/-- `App::next` with panic-checked subtraction. -/
def App.nextChecked (a : App) : Option App :=
  let children := App.currentChildren a
  let iOpt : Option Nat :=
    match a.selected with
    | some i =>
      if !children.isEmpty then
        (checkedSub children.length 1).map (fun m => if i ≥ m then 0 else i + 1)
      else some (i + 1)
    | none => some 0
  iOpt.map (fun i => if children.isEmpty then a else { a with selected := some i })

/-- `App::previous` with panic-checked subtraction. -/
def App.previousChecked (a : App) : Option App :=
  let children := App.currentChildren a
  let iOpt : Option Nat :=
    match a.selected with
    | some i =>
      if i = 0 then
        (if !children.isEmpty then checkedSub children.length 1 else some 0)
      else checkedSub i 1
    | none => some 0
  iOpt.map (fun i => if children.isEmpty then a else { a with selected := some i })

/-- `App::page_down` with panic-checked subtraction. -/
def App.pageDownChecked (a : App) : Option App :=
  let children := App.currentChildren a
  if children.isEmpty then some a
  else
    let iOpt : Option Nat :=
      match a.selected with
      | some i => (checkedSub children.length 1).map (fun m => min (i + 10) m)
      | none => some 0
    iOpt.map (fun i => { a with selected := some i })

/-- `App::go_to_last` with panic-checked subtraction. -/
def App.goToLastChecked (a : App) : Option App :=
  let children := App.currentChildren a
  if !children.isEmpty then
    (checkedSub children.length 1).map (fun m => { a with selected := some m })
  else some a

/-- `enter_dir`'s state change before the selection reset. -/
def pushCurrent (a : App) (c : Nat) : App :=
  { a with pathHistory := a.pathHistory ++ [a.currentNode], currentNode := c }

/-- `go_up`'s state change before the selection reset. -/
def popCurrent (a : App) (p : Nat) : App :=
  { a with pathHistory := a.pathHistory.dropLast, currentNode := p }

/-- Set only the selection. -/
def withSelected (a : App) (s : Option Nat) : App := { a with selected := s }

theorem enterDir_of_dir (a : App) (i c : Nat) (hsel : a.selected = some i)
    (hlen : i < (App.currentChildren a).length)
    (hget : (App.currentChildren a).get? i = some c)
    (hdir : (nodeAt a.tree c).isDir = true) :
    App.enterDir a =
      (if (App.currentChildren (App.sortCurrentView (pushCurrent a c))).isEmpty
        then withSelected (App.sortCurrentView (pushCurrent a c)) none
        else withSelected (App.sortCurrentView (pushCurrent a c)) (some 0)) := by
  unfold App.enterDir
  rw [hsel]
  simp only [hlen, if_true, hget, hdir]
  rfl

theorem goUp_of_last (a : App) (p : Nat)
    (h : a.pathHistory.getLast? = some p) :
    App.goUp a =
      (if (App.currentChildren (App.sortCurrentView (popCurrent a p))).isEmpty
        then withSelected (App.sortCurrentView (popCurrent a p)) none
        else withSelected (App.sortCurrentView (popCurrent a p)) (some 0)) := by
  unfold App.goUp
  rw [h]
  rfl

theorem sortCurrentView_children_length (x : App) (j : Nat) :
    (nodeAt (App.sortCurrentView x).tree j).children.length =
      (nodeAt x.tree j).children.length := by
  by_cases h : j = x.currentNode
  · subst h
    rw [sortCurrentView_nodeAt_self]
    simp [withChildren, stableSort_length]
  · rw [sortCurrentView_nodeAt_ne x j h]

theorem sortCurrentView_nodeAt_path (x : App) (j : Nat) :
    (nodeAt (App.sortCurrentView x).tree j).path = (nodeAt x.tree j).path := by
  by_cases h : j = x.currentNode
  · subst h
    rw [sortCurrentView_nodeAt_self]
    rfl
  · rw [sortCurrentView_nodeAt_ne x j h]

/-- Claim C7: `page_down`/`page_up` keep the selection inside
`[0, len-1]` (the lower bound is inherent to `Nat`), and on an empty child
list every move/page/jump operation leaves the selection — in particular
an absent selection — unchanged. -/
theorem page_ops_clamped (a : App)
    (hsel : ∀ i, a.selected = some i → i < (App.currentChildren a).length) :
    (∀ j, (App.pageDown a).selected = some j →
      j < (App.currentChildren a).length) ∧
    (∀ j, (App.pageUp a).selected = some j →
      j < (App.currentChildren a).length) ∧
    (App.currentChildren a = [] →
      (App.next a).selected = a.selected ∧
      (App.previous a).selected = a.selected ∧
      (App.pageDown a).selected = a.selected ∧
      (App.pageUp a).selected = a.selected ∧
      (App.goToFirst a).selected = a.selected ∧
      (App.goToLast a).selected = a.selected) := by
  refine ⟨?_, ?_, ?_⟩
  · intro j hj
    unfold App.pageDown at hj
    by_cases hemp : (App.currentChildren a).isEmpty
    · rw [if_pos hemp] at hj
      exact hsel j hj
    · rw [if_neg hemp] at hj
      have hlen : 0 < (App.currentChildren a).length := by
        cases hc : App.currentChildren a with
        | nil => rw [hc] at hemp; simp at hemp
        | cons x xs => simp [hc]
      cases hs : a.selected with
      | none =>
        rw [hs] at hj
        simp only [Option.some.injEq] at hj
        omega
      | some i =>
        rw [hs] at hj
        simp only [Option.some.injEq] at hj
        omega
  · intro j hj
    unfold App.pageUp at hj
    by_cases hemp : (App.currentChildren a).isEmpty
    · rw [if_pos hemp] at hj
      exact hsel j hj
    · rw [if_neg hemp] at hj
      have hlen : 0 < (App.currentChildren a).length := by
        cases hc : App.currentChildren a with
        | nil => rw [hc] at hemp; simp at hemp
        | cons x xs => simp [hc]
      cases hs : a.selected with
      | none =>
        rw [hs] at hj
        simp only [Option.some.injEq] at hj
        omega
      | some i =>
        rw [hs] at hj
        simp only [Option.some.injEq] at hj
        have := hsel i hs
        omega
  · intro hc
    have hemp : (App.currentChildren a).isEmpty = true := by simp [hc]
    refine ⟨?_, ?_, ?_, ?_, ?_, ?_⟩ <;>
      simp [App.next, App.previous, App.pageDown, App.pageUp,
        App.goToFirst, App.goToLast, hemp]

/-- Claim C8: every navigation operation is a total function on the state:
the panic-checked variants (underflow at every `- 1` site modelled by
`checkedSub`) always succeed and agree with the pure operations
(`page_up` uses `saturating_sub` and `go_to_first`, `enter_dir`, `go_up`
contain no fallible primitive at all — their pure definitions are already
total); an empty child list makes every operation a no-op, and `Enter`
with no selection or on a non-directory child is a no-op. -/
theorem nav_ops_total (a : App) :
    App.nextChecked a = some (App.next a) ∧
    App.previousChecked a = some (App.previous a) ∧
    App.pageDownChecked a = some (App.pageDown a) ∧
    App.goToLastChecked a = some (App.goToLast a) ∧
    (App.currentChildren a = [] → App.next a = a ∧ App.previous a = a ∧
      App.pageDown a = a ∧ App.pageUp a = a ∧ App.goToFirst a = a ∧
      App.goToLast a = a ∧ App.enterDir a = a) ∧
    (a.selected = none → App.enterDir a = a) ∧
    (∀ i c, a.selected = some i → (App.currentChildren a).get? i = some c →
      (nodeAt a.tree c).isDir = false → App.enterDir a = a) ∧
    (a.pathHistory = [] → App.goUp a = a) := by
  have hlen1 : (App.currentChildren a).isEmpty = false →
      1 ≤ (App.currentChildren a).length := by
    intro h
    cases hc : App.currentChildren a with
    | nil => rw [hc] at h; simp at h
    | cons x xs => simp [hc]
  refine ⟨?_, ?_, ?_, ?_, ?_, ?_, ?_, ?_⟩
  · unfold App.nextChecked App.next
    cases hs : a.selected with
    | none => simp
    | some i =>
      cases hemp : (App.currentChildren a).isEmpty with
      | true => simp [hemp, checkedSub]
      | false => simp [hemp, checkedSub, hlen1 hemp]
  · unfold App.previousChecked App.previous
    cases hs : a.selected with
    | none => simp
    | some i =>
      cases hemp : (App.currentChildren a).isEmpty with
      | true =>
        by_cases hi : i = 0 <;> simp [hemp, checkedSub, hi]
      | false =>
        by_cases hi : i = 0
        · simp [hemp, checkedSub, hi, hlen1 hemp]
        · have h1 : 1 ≤ i := Nat.one_le_iff_ne_zero.mpr hi
          simp [hemp, checkedSub, hi, h1]
  · unfold App.pageDownChecked App.pageDown
    cases hemp : (App.currentChildren a).isEmpty with
    | true => simp [hemp]
    | false =>
      cases hs : a.selected with
      | none => simp [hemp]
      | some i => simp [hemp, checkedSub, hlen1 hemp]
  · unfold App.goToLastChecked App.goToLast
    cases hemp : (App.currentChildren a).isEmpty with
    | true => simp [hemp]
    | false => simp [hemp, checkedSub, hlen1 hemp]
  · intro hc
    have hemp : (App.currentChildren a).isEmpty = true := by simp [hc]
    refine ⟨?_, ?_, ?_, ?_, ?_, ?_, ?_⟩ <;>
      first
      | simp [App.next, App.previous, App.pageDown, App.pageUp,
          App.goToFirst, App.goToLast, hemp]
      | (unfold App.enterDir
         cases hs : a.selected with
         | none => rfl
         | some i => simp [hc])
  · intro hs
    unfold App.enterDir
    rw [hs]
  · intro i c hs hget hfile
    have hlen : i < (App.currentChildren a).length :=
      (List.get?_eq_some.mp hget).choose
    unfold App.enterDir
    rw [hs]
    simp only [hlen, if_true, hget, hfile]
    simp
  · intro hh
    unfold App.goUp
    rw [hh]
    rfl

/-- Claim C4: `Enter` on a selected directory child followed by `go_up`
returns `current` to the original node — same arena index (identity) and
same path — with the history restored and the selection reset to `0`
(the child list is non-empty here since it contained the entered child);
the pre-Enter selection index is not restored. -/
theorem enter_then_up_round_trip (a : App) (i c : Nat)
    (hsel : a.selected = some i)
    (hget : (App.currentChildren a).get? i = some c)
    (hdir : (nodeAt a.tree c).isDir = true) :
    (App.goUp (App.enterDir a)).currentNode = a.currentNode ∧
    (App.goUp (App.enterDir a)).pathHistory = a.pathHistory ∧
    (nodeAt (App.goUp (App.enterDir a)).tree
        (App.goUp (App.enterDir a)).currentNode).path =
      (nodeAt a.tree a.currentNode).path ∧
    (App.goUp (App.enterDir a)).selected = some 0 := by
  have hlen : i < (App.currentChildren a).length :=
    (List.get?_eq_some.mp hget).choose
  have hE := enterDir_of_dir a i c hsel hlen hget hdir
  -- the entered state, before the selection reset
  set E := App.sortCurrentView (pushCurrent a c) with hEdef
  have hEfields : (App.enterDir a).pathHistory = a.pathHistory ++ [a.currentNode]
      ∧ (App.enterDir a).currentNode = c ∧ (App.enterDir a).tree = E.tree := by
    rw [hE]
    by_cases h : (App.currentChildren E).isEmpty = true
    · rw [if_pos h]
      exact ⟨rfl, rfl, rfl⟩
    · rw [if_neg h]
      exact ⟨rfl, rfl, rfl⟩
  obtain ⟨hH, hC, hT⟩ := hEfields
  have hlast : (App.enterDir a).pathHistory.getLast? = some a.currentNode := by
    rw [hH]
    exact List.getLast?_concat _
  have hG := goUp_of_last (App.enterDir a) a.currentNode hlast
  set G := App.sortCurrentView (popCurrent (App.enterDir a) a.currentNode)
    with hGdef
  have hGfields : (App.goUp (App.enterDir a)).pathHistory =
        (App.enterDir a).pathHistory.dropLast
      ∧ (App.goUp (App.enterDir a)).currentNode = a.currentNode
      ∧ (App.goUp (App.enterDir a)).tree = G.tree := by
    rw [hG]
    by_cases h : (App.currentChildren G).isEmpty = true
    · rw [if_pos h]
      exact ⟨rfl, rfl, rfl⟩
    · rw [if_neg h]
      exact ⟨rfl, rfl, rfl⟩
  obtain ⟨hGH, hGC, hGT⟩ := hGfields
  -- the child list of the original node survives both sorts with its length
  have hlenG : (nodeAt G.tree a.currentNode).children.length =
      (App.currentChildren a).length := by
    have h1 := sortCurrentView_children_length
      (popCurrent (App.enterDir a) a.currentNode) a.currentNode
    have h2 := sortCurrentView_children_length (pushCurrent a c) a.currentNode
    rw [hGdef, h1]
    rw [show (popCurrent (App.enterDir a) a.currentNode).tree =
      (App.enterDir a).tree from rfl, hT, hEdef, h2]
    rfl
  have hne : (App.currentChildren G).isEmpty = false := by
    have hGcur : (App.currentChildren G) = (nodeAt G.tree a.currentNode).children := by
      rw [App.currentChildren]
      rfl
    rw [hGcur]
    cases hcl : (nodeAt G.tree a.currentNode).children with
    | nil => rw [hcl] at hlenG; simp at hlenG; omega
    | cons x xs => rfl
  refine ⟨hGC, ?_, ?_, ?_⟩
  · rw [hGH, hH]
    exact List.dropLast_concat
  · rw [hGT, hGC, hGdef]
    rw [sortCurrentView_nodeAt_path]
    rw [show (popCurrent (App.enterDir a) a.currentNode).tree =
      (App.enterDir a).tree from rfl, hT, hEdef]
    rw [sortCurrentView_nodeAt_path]
    rfl
  · rw [hG, if_neg (by rw [hne]; exact Bool.false_ne_true)]
    rfl

/-! ### Error counts: only the scan root carries one -/

/-- The node allocated for one walk entry. -/
def entryNode (e : Entry) : FileNode :=
  FileNode.new e.path (lastComponent e.path) e.size e.isDir e.mtime

/-- Invariant on an arena: node 0 exists and carries `errC`; every other
node carries zero. -/
def errSpecL (errC : Nat) (l : List FileNode) : Prop :=
  0 < l.length ∧
  (∀ n, l.get? 0 = some n → n.errorCount = errC) ∧
  (∀ i n, i ≠ 0 → l.get? i = some n → n.errorCount = 0)

theorem updateAt_errorCount (l : List FileNode) (i : Nat)
    (f : FileNode → FileNode) (hf : ∀ n, (f n).errorCount = n.errorCount)
    (j : Nat) (n : FileNode) (h : (updateAt l i f).get? j = some n) :
    ∃ m, l.get? j = some m ∧ m.errorCount = n.errorCount := by
  by_cases hij : i = j
  · subst hij
    rw [updateAt_get?_eq] at h
    cases hm : l.get? i with
    | none => rw [hm] at h; simp at h
    | some m =>
      rw [hm] at h
      simp only [Option.map_some'] at h
      exact ⟨m, rfl, by rw [← Option.some.inj h, hf]⟩
  · rw [updateAt_get?_ne _ _ _ _ hij] at h
    exact ⟨n, h, rfl⟩

theorem errSpecL_append (errC : Nat) (l : List FileNode)
    (h : errSpecL errC l) (x : FileNode) (hx : x.errorCount = 0) :
    errSpecL errC (l ++ [x]) := by
  obtain ⟨hpos, h0, hrest⟩ := h
  refine ⟨by simp, ?_, ?_⟩
  · intro n hn
    rw [List.get?_append hpos] at hn
    exact h0 n hn
  · intro i n hne hn
    by_cases hlt : i < l.length
    · rw [List.get?_append hlt] at hn
      exact hrest i n hne hn
    · by_cases heq : i = l.length
      · subst heq
        rw [List.get?_concat_length] at hn
        rw [← Option.some.inj hn]
        exact hx
      · rw [List.get?_eq_none.mpr (by simp; omega)] at hn
        simp at hn

theorem errSpecL_updateAt (errC : Nat) (l : List FileNode) (i : Nat)
    (f : FileNode → FileNode) (hf : ∀ n, (f n).errorCount = n.errorCount)
    (h : errSpecL errC l) : errSpecL errC (updateAt l i f) := by
  obtain ⟨hpos, h0, hrest⟩ := h
  refine ⟨by rw [updateAt_length]; exact hpos, ?_, ?_⟩
  · intro n hn
    obtain ⟨m, hm, hme⟩ := updateAt_errorCount l i f hf 0 n hn
    rw [← hme]
    exact h0 m hm
  · intro j n hne hn
    obtain ⟨m, hm, hme⟩ := updateAt_errorCount l i f hf j n hn
    rw [← hme]
    exact hrest j m hne hm

theorem errSpecL_addEntry (errC : Nat) (t : Tree) (e : Entry)
    (h : errSpecL errC t.nodes) : errSpecL errC (addEntry t e).nodes := by
  have hbase : errSpecL errC (t.nodes ++ [entryNode e]) :=
    errSpecL_append errC t.nodes h (entryNode e) rfl
  unfold addEntry
  cases hp : parentOf e.path with
  | none => exact hbase
  | some pp =>
    cases hl : lookupPath ((e.path, t.nodes.length) :: t.pathMap) pp with
    | none =>
      simp only [hl]
      exact hbase
    | some pidx =>
      simp only [hl]
      exact errSpecL_updateAt errC _ pidx _ (fun n => rfl) hbase

theorem errSpecL_propEntry (errC : Nat) (t : Tree) (e : Entry)
    (h : errSpecL errC t.nodes) : errSpecL errC (propEntry t e).nodes := by
  unfold propEntry
  repeat' first
    | exact errSpecL_updateAt errC _ _ _ (fun n => rfl) h
    | exact h
    | split

theorem errSpecL_foldl_add (errC : Nat) :
    ∀ (l : List Entry) (t : Tree), errSpecL errC t.nodes →
      errSpecL errC ((l.foldl addEntry t).nodes) := by
  intro l
  induction l with
  | nil => exact fun t h => h
  | cons e es ih =>
    intro t h
    exact ih (addEntry t e) (errSpecL_addEntry errC t e h)

theorem errSpecL_foldl_prop (errC : Nat) :
    ∀ (l : List Entry) (t : Tree), errSpecL errC t.nodes →
      errSpecL errC ((l.foldl propEntry t).nodes) := by
  intro l
  induction l with
  | nil => exact fun t h => h
  | cons e es ih =>
    intro t h
    exact ih (propEntry t e) (errSpecL_propEntry errC t e h)

/-- Claim C9: after a scan, the root node alone carries the scan's whole
error count; every other node created by the scan has `error_count = 0`,
so per-directory counts below the scan root never reflect errors under
them. -/
theorem buildTree_errSpec (r : List String) (mt : Option Nat)
    (errC : Nat) (es : List Entry) :
    errSpecL errC (buildTree r mt errC es).nodes := by
  have hbase : errSpecL errC (initTree r mt errC).nodes := by
    refine ⟨by simp [initTree], ?_, ?_⟩
    · intro n hn
      rw [← Option.some.inj hn]
      rfl
    · intro i n hne hn
      cases i with
      | zero => exact absurd rfl hne
      | succ j => simp [initTree, List.get?] at hn
  exact errSpecL_foldl_prop errC (stableSort depthLt es).reverse
    ((stableSort depthLt es).foldl addEntry (initTree r mt errC))
    (errSpecL_foldl_add errC (stableSort depthLt es) (initTree r mt errC) hbase)

/-- Claim C9: after a scan, the root node alone carries the scan's whole
error count; every other node created by the scan has `error_count = 0`,
so per-directory counts below the scan root never reflect errors under
them. -/
theorem scan_error_count_root_only (r : List String) (mt : Option Nat)
    (errC : Nat) (es : List Entry) :
    (∀ n, (buildTree r mt errC es).nodes.get? 0 = some n →
      n.errorCount = errC) ∧
    (∀ i n, i ≠ 0 → (buildTree r mt errC es).nodes.get? i = some n →
      n.errorCount = 0) :=
  ⟨(buildTree_errSpec r mt errC es).2.1, (buildTree_errSpec r mt errC es).2.2⟩

/-! ### Refresh: frame and replacement (claim C3) -/

/-- Replace the `children`, `size` and `error_count` fields of a node —
exactly what `refresh` overwrites on the current node. -/
def replaceCSE (n : FileNode) (c : List Nat) (s e : Nat) : FileNode :=
  { n with children := c, size := s, errorCount := e }

/-- The arena after `refresh` splices in the freshly scanned nodes (at
offset `a.tree.nodes.length`) and overwrites the current node. -/
def spliceRefresh (a : App) (es : List Entry) (errC : Nat)
    (mt : Option Nat) : Tree :=
  let newTree := buildTree (App.currentPath a) mt errC es
  let k := a.tree.nodes.length
  let newRoot := shiftNode k (nodeAt newTree 0)
  let nodes := updateAt (a.tree.nodes ++ newTree.nodes.map (shiftNode k))
    a.currentNode
    (fun cur => replaceCSE cur newRoot.children newRoot.size newRoot.errorCount)
  { a.tree with nodes := nodes }

/-- `refresh` just before the re-sort: status message plus spliced arena. -/
def preRefresh (a : App) (es : List Entry) (errC : Nat)
    (mt : Option Nat) : App :=
  { a with statusMessage := some "Rescanning...",
           tree := spliceRefresh a es errC mt }

theorem refresh_eq (a : App) (es : List Entry) (errC : Nat) (mt : Option Nat) :
    App.refresh a es errC mt =
      withStatus
        (if (App.currentChildren
              (App.sortCurrentView (preRefresh a es errC mt))).isEmpty
          then withSelected (App.sortCurrentView (preRefresh a es errC mt)) none
          else withSelected (App.sortCurrentView (preRefresh a es errC mt))
            (some 0))
        "Refresh complete!" := by
  rfl

theorem spliceRefresh_get?_ne (a : App) (es : List Entry) (errC : Nat)
    (mt : Option Nat) (i : Nat) (hi : i < a.tree.nodes.length)
    (hne : i ≠ a.currentNode) :
    (spliceRefresh a es errC mt).nodes.get? i = a.tree.nodes.get? i := by
  unfold spliceRefresh
  rw [updateAt_get?_ne _ _ _ _ (fun hc => hne hc.symm)]
  exact get?_append_left hi

theorem spliceRefresh_nodeAt_self (a : App) (es : List Entry) (errC : Nat)
    (mt : Option Nat) (hcur : a.currentNode < a.tree.nodes.length) :
    nodeAt (spliceRefresh a es errC mt) a.currentNode =
      replaceCSE (nodeAt a.tree a.currentNode)
        ((nodeAt (buildTree (App.currentPath a) mt errC es) 0).children.map
          (· + a.tree.nodes.length))
        ((nodeAt (buildTree (App.currentPath a) mt errC es) 0).size)
        ((nodeAt (buildTree (App.currentPath a) mt errC es) 0).errorCount) := by
  unfold spliceRefresh nodeAt
  simp only [updateAt_get?_eq]
  rw [get?_append_left hcur]
  cases hn : a.tree.nodes.get? a.currentNode with
  | none =>
    exfalso
    rw [List.get?_eq_none] at hn
    omega
  | some n => rfl

/-- Claim C3: `refresh` keeps the current handle (same arena index, same
path), leaves every other pre-existing node — in particular every
ancestor and its size — untouched, replaces the current node's `size`,
`error_count` and `children` with the freshly built root's values (the
children re-indexed into the spliced arena and re-sorted with the active
sort), and resets the selection to `0`, or absent when the fresh child
list is empty. -/
theorem refresh_replaces_current_only (a : App) (es : List Entry)
    (errC : Nat) (mt : Option Nat)
    (hcur : a.currentNode < a.tree.nodes.length) :
    (App.refresh a es errC mt).currentNode = a.currentNode ∧
    (App.refresh a es errC mt).pathHistory = a.pathHistory ∧
    (App.refresh a es errC mt).sortMode = a.sortMode ∧
    (App.refresh a es errC mt).sortAscending = a.sortAscending ∧
    (∀ i, i < a.tree.nodes.length → i ≠ a.currentNode →
      (App.refresh a es errC mt).tree.nodes.get? i = a.tree.nodes.get? i) ∧
    (∀ i, i ∈ a.pathHistory → i < a.tree.nodes.length → i ≠ a.currentNode →
      (nodeAt (App.refresh a es errC mt).tree i).size =
        (nodeAt a.tree i).size) ∧
    (nodeAt (App.refresh a es errC mt).tree a.currentNode).path =
      (nodeAt a.tree a.currentNode).path ∧
    (nodeAt (App.refresh a es errC mt).tree a.currentNode).size =
      (nodeAt (buildTree (App.currentPath a) mt errC es) 0).size ∧
    (nodeAt (App.refresh a es errC mt).tree a.currentNode).errorCount =
      errC ∧
    (nodeAt (App.refresh a es errC mt).tree a.currentNode).children =
      stableSort (childLt (spliceRefresh a es errC mt) a.sortMode
          a.sortAscending)
        ((nodeAt (buildTree (App.currentPath a) mt errC es) 0).children.map
          (· + a.tree.nodes.length)) ∧
    (App.refresh a es errC mt).selected =
      (if (nodeAt (App.refresh a es errC mt).tree
            a.currentNode).children.isEmpty then none else some 0) := by
  have htree : (App.refresh a es errC mt).tree =
      (App.sortCurrentView (preRefresh a es errC mt)).tree := by
    rw [refresh_eq]
    by_cases h : (App.currentChildren
        (App.sortCurrentView (preRefresh a es errC mt))).isEmpty = true
    · rw [if_pos h]; rfl
    · rw [if_neg h]; rfl
  have hcurN : (App.refresh a es errC mt).currentNode = a.currentNode := by
    rw [refresh_eq]
    by_cases h : (App.currentChildren
        (App.sortCurrentView (preRefresh a es errC mt))).isEmpty = true
    · rw [if_pos h]; rfl
    · rw [if_neg h]; rfl
  have hhist : (App.refresh a es errC mt).pathHistory = a.pathHistory := by
    rw [refresh_eq]
    by_cases h : (App.currentChildren
        (App.sortCurrentView (preRefresh a es errC mt))).isEmpty = true
    · rw [if_pos h]; rfl
    · rw [if_neg h]; rfl
  have hsm : (App.refresh a es errC mt).sortMode = a.sortMode ∧
      (App.refresh a es errC mt).sortAscending = a.sortAscending := by
    rw [refresh_eq]
    by_cases h : (App.currentChildren
        (App.sortCurrentView (preRefresh a es errC mt))).isEmpty = true
    · rw [if_pos h]; exact ⟨rfl, rfl⟩
    · rw [if_neg h]; exact ⟨rfl, rfl⟩
  -- frame on pre-existing nodes other than current
  have hframe : ∀ i, i < a.tree.nodes.length → i ≠ a.currentNode →
      (App.refresh a es errC mt).tree.nodes.get? i = a.tree.nodes.get? i := by
    intro i hi hne
    rw [htree]
    have h1 : (App.sortCurrentView (preRefresh a es errC mt)).tree.nodes =
        updateAt (spliceRefresh a es errC mt).nodes a.currentNode
          (fun n => withChildren n
            (stableSort (childLt (spliceRefresh a es errC mt) a.sortMode
              a.sortAscending) n.children)) := rfl
    rw [h1, updateAt_get?_ne _ _ _ _ (fun hc => hne hc.symm)]
    exact spliceRefresh_get?_ne a es errC mt i hi hne
  -- the current node after refresh
  have hself : nodeAt (App.refresh a es errC mt).tree a.currentNode =
      withChildren
        (replaceCSE (nodeAt a.tree a.currentNode)
          ((nodeAt (buildTree (App.currentPath a) mt errC es) 0).children.map
            (· + a.tree.nodes.length))
          ((nodeAt (buildTree (App.currentPath a) mt errC es) 0).size)
          ((nodeAt (buildTree (App.currentPath a) mt errC es) 0).errorCount))
        (stableSort (childLt (spliceRefresh a es errC mt) a.sortMode
            a.sortAscending)
          ((nodeAt (buildTree (App.currentPath a) mt errC es) 0).children.map
            (· + a.tree.nodes.length))) := by
    rw [htree]
    have h2 := sortCurrentView_nodeAt_self (preRefresh a es errC mt)
    have h3 : (preRefresh a es errC mt).currentNode = a.currentNode := rfl
    rw [h3] at h2
    rw [h2]
    have h4 : nodeAt (preRefresh a es errC mt).tree a.currentNode =
        nodeAt (spliceRefresh a es errC mt) a.currentNode := rfl
    rw [h4, spliceRefresh_nodeAt_self a es errC mt hcur]
    rfl
  have hroot0 : (nodeAt (buildTree (App.currentPath a) mt errC es) 0).errorCount
      = errC := by
    obtain ⟨hpos, h0, _⟩ :=
      buildTree_errSpec (App.currentPath a) mt errC es
    cases hn : (buildTree (App.currentPath a) mt errC es).nodes.get? 0 with
    | none =>
      rw [List.get?_eq_none] at hn
      omega
    | some n =>
      have := h0 n hn
      rw [nodeAt, hn]
      exact this
  refine ⟨hcurN, hhist, hsm.1, hsm.2, hframe, ?_, ?_, ?_, ?_, ?_, ?_⟩
  · intro i hmem hi hne
    rw [nodeAt, nodeAt, hframe i hi hne]
  · rw [hself]; rfl
  · rw [hself]; rfl
  · rw [hself]
    exact hroot0
  · rw [hself]
    rfl
  · have hchEq : (nodeAt (App.refresh a es errC mt).tree
        a.currentNode).children =
        App.currentChildren (App.sortCurrentView (preRefresh a es errC mt)) := by
      rw [htree]
      rfl
    rw [hchEq, refresh_eq]
    by_cases h : (App.currentChildren
        (App.sortCurrentView (preRefresh a es errC mt))).isEmpty = true
    · rw [if_pos h, if_pos h]
      rfl
    · rw [if_neg h, if_neg h]
      rfl

/-! ### Orphaned entries (claim C10) -/

theorem addEntry_pathMap (t : Tree) (e : Entry) :
    (addEntry t e).pathMap = (e.path, t.nodes.length) :: t.pathMap := by
  unfold addEntry
  cases hp : parentOf e.path with
  | none => rfl
  | some pp =>
    cases hl : lookupPath ((e.path, t.nodes.length) :: t.pathMap) pp with
    | none => simp only [hl]
    | some pidx => simp only [hl]

theorem addEntry_lookup (t : Tree) (e : Entry) (q : List String) :
    lookupPath (addEntry t e).pathMap q =
      (if e.path = q then some t.nodes.length else lookupPath t.pathMap q) := by
  rw [addEntry_pathMap]
  rfl

theorem propEntry_pathMap (t : Tree) (e : Entry) :
    (propEntry t e).pathMap = t.pathMap := by
  unfold propEntry
  repeat' first | rfl | split

theorem foldl_add_lookup_frame (l : List Entry) :
    ∀ (t : Tree) (q : List String), q ∉ l.map (·.path) →
      lookupPath ((l.foldl addEntry t).pathMap) q = lookupPath t.pathMap q := by
  induction l with
  | nil => intro t q _; rfl
  | cons e es ih =>
    intro t q hq
    have h1 : q ∉ es.map (·.path) :=
      fun hmem => hq (by simp only [List.map_cons]; exact List.mem_cons_of_mem _ hmem)
    have h2 : e.path ≠ q := fun hc => hq (by simp [hc])
    rw [List.foldl_cons, ih (addEntry t e) q h1, addEntry_lookup, if_neg h2]

theorem foldl_prop_pathMap (l : List Entry) :
    ∀ t : Tree, ((l.foldl propEntry t)).pathMap = t.pathMap := by
  induction l with
  | nil => intro t; rfl
  | cons e es ih =>
    intro t
    rw [List.foldl_cons, ih (propEntry t e), propEntry_pathMap]

theorem get?_append_cases {α : Type} (l : List α) (x : α) (j : Nat)
    (m : α) (h : (l ++ [x]).get? j = some m) :
    (j < l.length ∧ l.get? j = some m) ∨ (j = l.length ∧ m = x) := by
  by_cases hlt : j < l.length
  · rw [List.get?_append hlt] at h
    exact Or.inl ⟨hlt, h⟩
  · by_cases heq : j = l.length
    · subst heq
      rw [List.get?_concat_length] at h
      exact Or.inr ⟨rfl, (Option.some.inj h).symm⟩
    · rw [List.get?_eq_none.mpr (by simp; omega)] at h
      simp at h

theorem updateAt_get?_cases (l : List FileNode) (i : Nat)
    (f : FileNode → FileNode) (j : Nat) (m : FileNode)
    (h : (updateAt l i f).get? j = some m) :
    (j ≠ i ∧ l.get? j = some m) ∨ (j = i ∧ ∃ b, l.get? i = some b ∧ m = f b) := by
  by_cases hij : j = i
  · subst hij
    rw [updateAt_get?_eq] at h
    cases hb : l.get? j with
    | none => rw [hb] at h; simp at h
    | some b =>
      rw [hb] at h
      simp only [Option.map_some'] at h
      exact Or.inr ⟨rfl, b, rfl, (Option.some.inj h).symm⟩
  · rw [updateAt_get?_ne _ _ _ _ (fun hc => hij hc.symm)] at h
    exact Or.inl ⟨hij, h⟩

theorem parentOf_ne (p q : List String) (h : parentOf p = some q) : q ≠ p := by
  cases p with
  | nil => simp [parentOf] at h
  | cons x xs =>
    intro hc
    have hq : q = (x :: xs).dropLast := (Option.some.inj h).symm
    have hlen : q.length < (x :: xs).length := by
      rw [hq, List.length_dropLast]
      simp
    rw [hc] at hlen
    omega

/-- Arena well-formedness: map values and child indices are in range, and
every node sitting in some children list has a parent path that is present
in the lookup map (it was there when the node was attached, and the map
only grows). -/
def wfArena (t : Tree) : Prop :=
  (∀ q k, lookupPath t.pathMap q = some k → k < t.nodes.length) ∧
  (∀ i n, t.nodes.get? i = some n → ∀ j, j ∈ n.children →
    j < t.nodes.length) ∧
  (∀ i n j m, t.nodes.get? i = some n → j ∈ n.children →
    t.nodes.get? j = some m → ∃ q, parentOf m.path = some q ∧
      (lookupPath t.pathMap q).isSome)

theorem wfArena_plainAppend (t : Tree) (e : Entry) (h : wfArena t) :
    wfArena { nodes := t.nodes ++ [entryNode e],
              pathMap := (e.path, t.nodes.length) :: t.pathMap } := by
  obtain ⟨hmap, hrange, hchild⟩ := h
  refine ⟨?_, ?_, ?_⟩
  · intro q k hk
    simp only [lookupPath] at hk
    by_cases hq : e.path = q
    · rw [if_pos hq] at hk
      have hkk : k = t.nodes.length := (Option.some.inj hk).symm
      simp [hkk]
    · rw [if_neg hq] at hk
      have := hmap q k hk
      simp
      omega
  · intro i n hin j hj
    rcases get?_append_cases t.nodes (entryNode e) i n hin with
      ⟨hlt, hold⟩ | ⟨heq, hnew⟩
    · have := hrange i n hold j hj
      simp
      omega
    · rw [hnew] at hj
      simp [entryNode, FileNode.new] at hj
  · intro i n j m hin hj hjm
    rcases get?_append_cases t.nodes (entryNode e) i n hin with
      ⟨hlt, hold⟩ | ⟨heq, hnew⟩
    · have hjlt : j < t.nodes.length := hrange i n hold j hj
      rw [List.get?_append hjlt] at hjm
      obtain ⟨q, hq, hsome⟩ := hchild i n j m hold hj hjm
      refine ⟨q, hq, ?_⟩
      simp only [lookupPath]
      by_cases hpq : e.path = q
      · simp [hpq]
      · rw [if_neg hpq]
        exact hsome
    · rw [hnew] at hj
      simp [entryNode, FileNode.new] at hj

theorem wfArena_addEntry (t : Tree) (e : Entry) (h : wfArena t) :
    wfArena (addEntry t e) := by
  have hplain := wfArena_plainAppend t e h
  obtain ⟨hmap, hrange, hchild⟩ := h
  unfold addEntry
  cases hp : parentOf e.path with
  | none => exact hplain
  | some pp =>
    cases hl : lookupPath ((e.path, t.nodes.length) :: t.pathMap) pp with
    | none =>
      simp only [hl]
      exact hplain
    | some pidx =>
      simp only [hl]
      rw [show FileNode.new e.path (lastComponent e.path) e.size e.isDir
        e.mtime = entryNode e from rfl]
      obtain ⟨hmapP, hrangeP, hchildP⟩ := hplain
      have hppne : pp ≠ e.path := parentOf_ne e.path pp hp
      have hpidx : pidx < t.nodes.length := by
        simp only [lookupPath] at hl
        rw [if_neg (fun hc => hppne hc.symm)] at hl
        exact hmap pp pidx hl
      have hbaseE : (t.nodes ++ [entryNode e]).get? t.nodes.length =
          some (entryNode e) := List.get?_concat_length _ _
      refine ⟨?_, ?_, ?_⟩
      · intro q k hk
        have := hmapP q k hk
        rw [updateAt_length]
        simpa using this
      · intro i n hin j hj
        rw [updateAt_length]
        rcases updateAt_get?_cases _ pidx _ i n hin with
          ⟨hne, hbase⟩ | ⟨hiq, b, hb, hnb⟩
        · exact hrangeP i n hbase j hj
        · rw [hnb] at hj
          rcases List.mem_append.mp hj with hjb | hjlen
          · exact hrangeP pidx b hb j hjb
          · have : j = t.nodes.length := List.mem_singleton.mp hjlen
            simp [this]
      · intro i n j m hin hj hjm
        rcases updateAt_get?_cases _ pidx _ j m hjm with
          ⟨hjne, hjbase⟩ | ⟨hjq, b, hb, hmb⟩
        · -- node j untouched by the update
          rcases updateAt_get?_cases _ pidx _ i n hin with
            ⟨hine, hibase⟩ | ⟨hiq, b, hb, hnb⟩
          · exact hchildP i n j m hibase hj hjbase
          · rw [hnb] at hj
            rcases List.mem_append.mp hj with hjb | hjlen
            · exact hchildP pidx b j m hb hjb hjbase
            · have hje : j = t.nodes.length := List.mem_singleton.mp hjlen
              subst hje
              rw [hbaseE] at hjbase
              refine ⟨pp, ?_, ?_⟩
              · rw [← Option.some.inj hjbase]
                exact hp
              · rw [hl]
                rfl
        · -- node j is the updated parent; its path is unchanged
          have hmpath : m.path = b.path := by rw [hmb]
          rcases updateAt_get?_cases _ pidx _ i n hin with
            ⟨hine, hibase⟩ | ⟨hiq, b', hb', hnb⟩
          · obtain ⟨q, hq, hs⟩ := hchildP i n j b hibase hj (hjq ▸ hb)
            exact ⟨q, by rw [hmpath]; exact hq, hs⟩
          · rw [hnb] at hj
            rcases List.mem_append.mp hj with hjb | hjlen
            · obtain ⟨q, hq, hs⟩ := hchildP pidx b' j b hb' hjb (hjq ▸ hb)
              exact ⟨q, by rw [hmpath]; exact hq, hs⟩
            · have hje : j = t.nodes.length := List.mem_singleton.mp hjlen
              omega
      -- (the conjunct order above matches `wfArena`)

/-- Replace only the node list of a tree. -/
def withNodes (t : Tree) (l : List FileNode) : Tree := { t with nodes := l }

theorem wfArena_sizeUpdate (t : Tree) (pidx : Nat) (d : Nat)
    (h : wfArena t) :
    wfArena (withNodes t
      (updateAt t.nodes pidx (fun pn => { pn with size := pn.size + d }))) := by
  obtain ⟨hmap, hrange, hchild⟩ := h
  simp only [wfArena, withNodes]
  refine ⟨?_, ?_, ?_⟩
  · intro q k hk
    rw [updateAt_length]
    exact hmap q k hk
  · intro i n hin j hj
    rw [updateAt_length]
    rcases updateAt_get?_cases _ pidx _ i n hin with
      ⟨hne, hbase⟩ | ⟨hiq, b, hb, hnb⟩
    · exact hrange i n hbase j hj
    · rw [hnb] at hj
      exact hrange pidx b hb j hj
  · intro i n j m hin hj hjm
    have hjm' : ∃ b, t.nodes.get? j = some b ∧ m.path = b.path := by
      rcases updateAt_get?_cases _ pidx _ j m hjm with
        ⟨hne, hbase⟩ | ⟨hjq, b, hb, hmb⟩
      · exact ⟨m, hbase, rfl⟩
      · exact ⟨b, hjq ▸ hb, by rw [hmb]⟩
    obtain ⟨b, hb, hmp⟩ := hjm'
    rcases updateAt_get?_cases _ pidx _ i n hin with
      ⟨hne, hbase⟩ | ⟨hiq, b', hb', hnb⟩
    · obtain ⟨q, hq, hs⟩ := hchild i n j b hbase hj hb
      exact ⟨q, by rw [hmp]; exact hq, hs⟩
    · rw [hnb] at hj
      obtain ⟨q, hq, hs⟩ := hchild pidx b' j b hb' hj hb
      exact ⟨q, by rw [hmp]; exact hq, hs⟩

theorem wfArena_propEntry (t : Tree) (e : Entry) (h : wfArena t) :
    wfArena (propEntry t e) := by
  unfold propEntry
  repeat' first
    | exact wfArena_sizeUpdate t _ _ h
    | exact h
    | split

theorem wfArena_foldl_add :
    ∀ (l : List Entry) (t : Tree), wfArena t → wfArena (l.foldl addEntry t) := by
  intro l
  induction l with
  | nil => exact fun t h => h
  | cons e es ih => exact fun t h => ih (addEntry t e) (wfArena_addEntry t e h)

theorem wfArena_foldl_prop :
    ∀ (l : List Entry) (t : Tree), wfArena t → wfArena (l.foldl propEntry t) := by
  intro l
  induction l with
  | nil => exact fun t h => h
  | cons e es ih => exact fun t h => ih (propEntry t e) (wfArena_propEntry t e h)

theorem wfArena_init (r : List String) (mt : Option Nat) (errC : Nat) :
    wfArena (initTree r mt errC) := by
  refine ⟨?_, ?_, ?_⟩
  · intro q k hk
    simp only [initTree, lookupPath] at hk
    by_cases hq : r = q
    · rw [if_pos hq] at hk
      simp [initTree, ← Option.some.inj hk]
    · rw [if_neg hq] at hk
      simp at hk
  · intro i n hin j hj
    cases i with
    | zero =>
      have : n = rootNodeOf r mt errC := by
        simpa [initTree] using (Option.some.inj hin).symm
      rw [this] at hj
      simp [rootNodeOf, FileNode.new] at hj
    | succ i' => simp [initTree, List.get?] at hin
  · intro i n j m hin hj hjm
    cases i with
    | zero =>
      have : n = rootNodeOf r mt errC := by
        simpa [initTree] using (Option.some.inj hin).symm
      rw [this] at hj
      simp [rootNodeOf, FileNode.new] at hj
    | succ i' => simp [initTree, List.get?] at hin

theorem updateAt_path (l : List FileNode) (i : Nat) (f : FileNode → FileNode)
    (j : Nat) (m' : FileNode) (h : (updateAt l i f).get? j = some m')
    (hf : ∀ n, (f n).path = n.path) :
    ∃ m, l.get? j = some m ∧ m'.path = m.path := by
  rcases updateAt_get?_cases l i f j m' h with ⟨_, hbase⟩ | ⟨hjq, b, hb, hmb⟩
  · exact ⟨m', hbase, rfl⟩
  · exact ⟨b, by rw [hjq]; exact hb, by rw [hmb]; exact hf b⟩

theorem pathPresent_updateAt (l : List FileNode) (i : Nat)
    (f : FileNode → FileNode) (p : List String)
    (h : ∃ j n, l.get? j = some n ∧ n.path = p)
    (hf : ∀ n, (f n).path = n.path) :
    ∃ j n, (updateAt l i f).get? j = some n ∧ n.path = p := by
  obtain ⟨j, n, hn, hp⟩ := h
  by_cases hij : j = i
  · subst hij
    refine ⟨j, f n, ?_, ?_⟩
    · rw [updateAt_get?_eq, hn]
      rfl
    · rw [hf]
      exact hp
  · refine ⟨j, n, ?_, hp⟩
    rw [updateAt_get?_ne _ _ _ _ (fun hc => hij hc.symm)]
    exact hn

/-- Node 0 exists and sits at the scan root path. -/
def node0Spec (r : List String) (t : Tree) : Prop :=
  0 < t.nodes.length ∧ ∀ n, t.nodes.get? 0 = some n → n.path = r

theorem node0Spec_addEntry (r : List String) (t : Tree) (e : Entry)
    (h : node0Spec r t) : node0Spec r (addEntry t e) := by
  obtain ⟨hpos, hpath⟩ := h
  have hlen : (addEntry t e).nodes.length = t.nodes.length + 1 := by
    unfold addEntry
    cases hp : parentOf e.path with
    | none => simp
    | some pp =>
      cases hl : lookupPath ((e.path, t.nodes.length) :: t.pathMap) pp with
      | none => simp [hl]
      | some pidx => simp [hl, updateAt_length]
  refine ⟨by omega, ?_⟩
  intro n hn
  unfold addEntry at hn
  cases hp : parentOf e.path with
  | none =>
    rw [hp] at hn
    rcases get?_append_cases t.nodes _ 0 n hn with ⟨_, hold⟩ | ⟨heq, _⟩
    · exact hpath n hold
    · omega
  | some pp =>
    rw [hp] at hn
    cases hl : lookupPath ((e.path, t.nodes.length) :: t.pathMap) pp with
    | none =>
      simp only [hl] at hn
      rcases get?_append_cases t.nodes _ 0 n hn with ⟨_, hold⟩ | ⟨heq, _⟩
      · exact hpath n hold
      · omega
    | some pidx =>
      simp only [hl] at hn
      obtain ⟨m, hm, hmp⟩ := updateAt_path _ pidx _ 0 n hn (fun x => rfl)
      rcases get?_append_cases t.nodes _ 0 m hm with ⟨_, hold⟩ | ⟨heq, _⟩
      · rw [hmp]; exact hpath m hold
      · omega

theorem node0Spec_propEntry (r : List String) (t : Tree) (e : Entry)
    (h : node0Spec r t) : node0Spec r (propEntry t e) := by
  obtain ⟨hpos, hpath⟩ := h
  have hshape : (propEntry t e).nodes = t.nodes ∨
      ∃ pidx d, (propEntry t e).nodes =
        updateAt t.nodes pidx (fun pn => { pn with size := pn.size + d }) := by
    unfold propEntry
    repeat' first
      | exact Or.inr ⟨_, _, rfl⟩
      | exact Or.inl rfl
      | split
  rcases hshape with hsame | ⟨pidx, d, hupd⟩
  · rw [node0Spec, hsame]
    exact ⟨hpos, hpath⟩
  · rw [node0Spec, hupd, updateAt_length]
    refine ⟨hpos, ?_⟩
    intro n hn
    obtain ⟨m, hm, hmp⟩ := updateAt_path _ pidx _ 0 n hn (fun x => rfl)
    rw [hmp]
    exact hpath m hm

theorem node0Spec_foldl_add (r : List String) :
    ∀ (l : List Entry) (t : Tree), node0Spec r t →
      node0Spec r (l.foldl addEntry t) := by
  intro l
  induction l with
  | nil => exact fun t h => h
  | cons e es ih => exact fun t h => ih _ (node0Spec_addEntry r t e h)

theorem node0Spec_foldl_prop (r : List String) :
    ∀ (l : List Entry) (t : Tree), node0Spec r t →
      node0Spec r (l.foldl propEntry t) := by
  intro l
  induction l with
  | nil => exact fun t h => h
  | cons e es ih => exact fun t h => ih _ (node0Spec_propEntry r t e h)

/-- Some node of the arena sits at path `p`. -/
def pathPresent (t : Tree) (p : List String) : Prop :=
  ∃ i n, t.nodes.get? i = some n ∧ n.path = p

theorem pathPresent_addEntry_keep (t : Tree) (e : Entry) (p : List String)
    (h : pathPresent t p) : pathPresent (addEntry t e) p := by
  obtain ⟨i, n, hn, hp⟩ := h
  have hlt : i < t.nodes.length := by
    by_contra hge
    rw [List.get?_eq_none.mpr (by omega)] at hn
    simp at hn
  have hbase : ∃ j n', (t.nodes ++ [entryNode e]).get? j = some n' ∧
      n'.path = p := ⟨i, n, by rw [List.get?_append hlt]; exact hn, hp⟩
  unfold addEntry
  cases hpe : parentOf e.path with
  | none => exact hbase
  | some pp =>
    cases hl : lookupPath ((e.path, t.nodes.length) :: t.pathMap) pp with
    | none =>
      simp only [hl]
      exact hbase
    | some pidx =>
      simp only [hl]
      exact pathPresent_updateAt _ pidx _ p hbase (fun x => rfl)

theorem pathPresent_addEntry_new (t : Tree) (e : Entry) :
    pathPresent (addEntry t e) e.path := by
  have hbase : ∃ j n', (t.nodes ++ [entryNode e]).get? j = some n' ∧
      n'.path = e.path :=
    ⟨t.nodes.length, entryNode e, List.get?_concat_length _ _, rfl⟩
  unfold addEntry
  cases hpe : parentOf e.path with
  | none => exact hbase
  | some pp =>
    cases hl : lookupPath ((e.path, t.nodes.length) :: t.pathMap) pp with
    | none =>
      simp only [hl]
      exact hbase
    | some pidx =>
      simp only [hl]
      exact pathPresent_updateAt _ pidx _ e.path hbase (fun x => rfl)

theorem pathPresent_propEntry (t : Tree) (e : Entry) (p : List String)
    (h : pathPresent t p) : pathPresent (propEntry t e) p := by
  obtain ⟨i, n, hn, hp⟩ := h
  have hshape : (propEntry t e).nodes = t.nodes ∨
      ∃ pidx d, (propEntry t e).nodes =
        updateAt t.nodes pidx (fun pn => { pn with size := pn.size + d }) := by
    unfold propEntry
    repeat' first
      | exact Or.inr ⟨_, _, rfl⟩
      | exact Or.inl rfl
      | split
  rcases hshape with hsame | ⟨pidx, d, hupd⟩
  · exact ⟨i, n, by rw [hsame]; exact hn, hp⟩
  · have := pathPresent_updateAt t.nodes pidx
      (fun pn => { pn with size := pn.size + d }) p ⟨i, n, hn, hp⟩
      (fun x => rfl)
    obtain ⟨j, n', hn', hp'⟩ := this
    exact ⟨j, n', by rw [hupd]; exact hn', hp'⟩

theorem pathPresent_foldl_add :
    ∀ (l : List Entry) (t : Tree) (p : List String),
      (pathPresent t p ∨ p ∈ l.map (·.path)) →
      pathPresent (l.foldl addEntry t) p := by
  intro l
  induction l with
  | nil =>
    intro t p h
    rcases h with h | h
    · exact h
    · simp at h
  | cons e es ih =>
    intro t p h
    rw [List.foldl_cons]
    rcases h with h | h
    · exact ih _ p (Or.inl (pathPresent_addEntry_keep t e p h))
    · rw [List.map_cons] at h
      rcases List.mem_cons.mp h with h1 | h1
      · subst h1
        exact ih _ _ (Or.inl (pathPresent_addEntry_new t e))
      · exact ih _ p (Or.inr h1)

theorem pathPresent_foldl_prop :
    ∀ (l : List Entry) (t : Tree) (p : List String), pathPresent t p →
      pathPresent (l.foldl propEntry t) p := by
  intro l
  induction l with
  | nil => exact fun t p h => h
  | cons e es ih =>
    intro t p h
    exact ih _ p (pathPresent_propEntry t e p h)

/-- Reachability from node `i` to node `j` along children links. -/
inductive Reachable (t : Tree) : Nat → Nat → Prop
  | refl (i : Nat) : Reachable t i i
  | step {i j k : Nat} (n : FileNode) : Reachable t i j →
      t.nodes.get? j = some n → k ∈ n.children → Reachable t i k

/-- Claim C10: an entry whose parent path has no node in the path-keyed
lookup table still gets a node, but that node is never attached to any
children list, no node reachable from the root carries its path, and both
passes (forward attachment and reverse size propagation) leave every
existing node untouched when the parent lookup fails — so its size
contributes nothing to any ancestor's aggregate. -/
theorem orphan_entry_unreachable (r : List String) (mt : Option Nat)
    (errC : Nat) (es : List Entry) (e : Entry) (pp : List String)
    (he : e ∈ es) (hpp : parentOf e.path = some pp) (hppr : pp ≠ r)
    (hppes : pp ∉ es.map (·.path)) (her : e.path ≠ r) :
    lookupPath (buildTree r mt errC es).pathMap pp = none ∧
    (∃ i n, (buildTree r mt errC es).nodes.get? i = some n ∧
      n.path = e.path) ∧
    (∀ i n j m, (buildTree r mt errC es).nodes.get? i = some n →
      j ∈ n.children → (buildTree r mt errC es).nodes.get? j = some m →
      m.path ≠ e.path) ∧
    (∀ j m, Reachable (buildTree r mt errC es) 0 j →
      (buildTree r mt errC es).nodes.get? j = some m → m.path ≠ e.path) ∧
    (∀ t' : Tree, lookupPath t'.pathMap pp = none →
      (∀ i, i < t'.nodes.length →
        (addEntry t' e).nodes.get? i = t'.nodes.get? i) ∧
      propEntry t' e = t') := by
  have hppsorted : pp ∉ (stableSort depthLt es).map (·.path) := by
    intro hmem
    exact hppes (((stableSort_perm depthLt es).map (·.path)).mem_iff.mp hmem)
  have hmap2 : (buildTree r mt errC es).pathMap =
      ((stableSort depthLt es).foldl addEntry (initTree r mt errC)).pathMap :=
    foldl_prop_pathMap _ _
  have hlook : lookupPath (buildTree r mt errC es).pathMap pp = none := by
    rw [hmap2, foldl_add_lookup_frame _ _ _ hppsorted]
    simp only [initTree, lookupPath]
    rw [if_neg (fun hc => hppr hc.symm)]
  have hwf : wfArena (buildTree r mt errC es) :=
    wfArena_foldl_prop _ _ (wfArena_foldl_add _ _ (wfArena_init r mt errC))
  have hex : pathPresent (buildTree r mt errC es) e.path := by
    show pathPresent ((stableSort depthLt es).reverse.foldl propEntry
      ((stableSort depthLt es).foldl addEntry (initTree r mt errC))) e.path
    apply pathPresent_foldl_prop
    apply pathPresent_foldl_add
    right
    exact List.mem_map_of_mem (·.path) ((mem_stableSort depthLt es e).mpr he)
  have hnever : ∀ i n j m, (buildTree r mt errC es).nodes.get? i = some n →
      j ∈ n.children → (buildTree r mt errC es).nodes.get? j = some m →
      m.path ≠ e.path := by
    intro i n j m hin hj hjm hcontra
    obtain ⟨q, hq, hs⟩ := hwf.2.2 i n j m hin hj hjm
    rw [hcontra, hpp] at hq
    have hqpp : pp = q := Option.some.inj hq
    rw [← hqpp, hlook] at hs
    simp at hs
  have hroot0 : node0Spec r (buildTree r mt errC es) := by
    show node0Spec r ((stableSort depthLt es).reverse.foldl propEntry
      ((stableSort depthLt es).foldl addEntry (initTree r mt errC)))
    apply node0Spec_foldl_prop
    apply node0Spec_foldl_add
    refine ⟨by simp [initTree], ?_⟩
    intro n hn
    rw [← Option.some.inj hn]
    rfl
  have hreach : ∀ j m, Reachable (buildTree r mt errC es) 0 j →
      (buildTree r mt errC es).nodes.get? j = some m → m.path ≠ e.path := by
    intro j m hR
    induction hR with
    | refl =>
      intro h0
      rw [hroot0.2 m h0]
      exact fun hc => her hc.symm
    | step n hR2 hjn hk ih =>
      intro hkm
      exact hnever _ n _ m hjn hk hkm
  refine ⟨hlook, hex, hnever, hreach, ?_⟩
  intro t' hnone
  have heppne : e.path ≠ pp := fun hc => (parentOf_ne e.path pp hpp) hc.symm
  constructor
  · intro i hi
    have hl : lookupPath ((e.path, t'.nodes.length) :: t'.pathMap) pp = none := by
      simp only [lookupPath]
      rw [if_neg heppne]
      exact hnone
    have hnodes : (addEntry t' e).nodes = t'.nodes ++ [entryNode e] := by
      unfold addEntry
      rw [hpp]
      simp only [hl]
      rfl
    rw [hnodes]
    exact get?_append_left hi
  · unfold propEntry
    split
    · split
      · rfl
      · split
        · rfl
        · split
          · rfl
          · next node pp' hpp' =>
            split
            · rfl
            · next pidx hl =>
              exfalso
              rw [hpp] at hpp'
              rw [← Option.some.inj hpp', hnone] at hl
              exact Option.noConfusion hl
    · rfl

/-! ### Spec-side aggregate sums (claims C1, C2)

`subSum` is the order-insensitive closed form of the builder's aggregate:
the sum, over the entries directly below a path, of the file sizes plus,
for directories, the recursively aggregated subtree.  The fuel only
bounds the recursion depth; `subSumC` fixes it at a provably sufficient
value. -/

/-- Sum of the recorded sizes of the non-directory entries directly below
`p`. -/
def fileSum (l : List Entry) (p : List String) : Nat :=
  ((l.filter (fun f => decide (parentOf f.path = some p) && !f.isDir)).map
    (·.size)).sum

/-- Fuel-bounded recursive subtree sum. -/
def subSum (l : List Entry) (fuel : Nat) (p : List String) : Nat :=
  match fuel with
  | 0 => 0
  | fuel + 1 =>
    ((l.filter (fun f => decide (parentOf f.path = some p))).map
      (fun f => if f.isDir then f.size + subSum l fuel f.path
                else f.size)).sum

/-- Number of entries strictly deeper than `p`. -/
def deeperCount (l : List Entry) (p : List String) : Nat :=
  (l.filter (fun f => decide (p.length < f.path.length))).length

/-- Canonical subtree sum (any fuel above `deeperCount` agrees with it). -/
def subSumC (l : List Entry) (p : List String) : Nat :=
  subSum l (deeperCount l p + 1) p

/-- Recursive sum of the file sizes only (used for the "root equals the
sum of all file sizes in the subtree" reading; equals `subSum` when
directories record size 0). -/
def fileOnlySum (l : List Entry) (fuel : Nat) (p : List String) : Nat :=
  match fuel with
  | 0 => 0
  | fuel + 1 =>
    ((l.filter (fun f => decide (parentOf f.path = some p))).map
      (fun f => if f.isDir then fileOnlySum l fuel f.path else f.size)).sum

theorem parentOf_length (q p : List String) (h : parentOf q = some p) :
    p.length + 1 = q.length := by
  cases q with
  | nil => simp [parentOf] at h
  | cons x xs =>
    have : p = (x :: xs).dropLast := (Option.some.inj h).symm
    rw [this, List.length_dropLast]
    simp

theorem filter_length_mono (q r : α → Bool) (l : List α)
    (himp : ∀ x, q x = true → r x = true) :
    (l.filter q).length ≤ (l.filter r).length := by
  induction l with
  | nil => exact Nat.le_refl 0
  | cons y ys ih =>
    by_cases hq : q y = true
    · simp [List.filter, hq, himp y hq]
      omega
    · rw [List.filter_cons]
      simp only [hq, if_false]
      rw [List.filter_cons]
      by_cases hr : r y = true <;> simp [hr] <;> omega

theorem filter_length_lt (q r : α → Bool) (l : List α)
    (himp : ∀ x, q x = true → r x = true) (e : α) (he : e ∈ l)
    (hr : r e = true) (hq : q e = false) :
    (l.filter q).length < (l.filter r).length := by
  induction l with
  | nil => simp at he
  | cons y ys ih =>
    rcases List.mem_cons.mp he with hey | hey
    · subst hey
      rw [List.filter_cons, List.filter_cons]
      simp only [hq, hr, if_true, if_false]
      have := filter_length_mono q r ys himp
      simp
      omega
    · have hstrict := ih hey
      rw [List.filter_cons, List.filter_cons]
      by_cases hqy : q y = true
      · simp [hqy, himp y hqy]
        omega
      · simp only [hqy, if_false]
        by_cases hry : r y = true <;> simp [hry] <;> omega

theorem deeperCount_child (l : List Entry) (p : List String) (f : Entry)
    (hf : f ∈ l) (hp : parentOf f.path = some p) :
    deeperCount l f.path < deeperCount l p := by
  have hlen : p.length + 1 = f.path.length := parentOf_length f.path p hp
  apply filter_length_lt _ _ l ?_ f hf
  · simp only [decide_eq_true_eq]
    omega
  · simp only [decide_eq_false_iff_not]
    omega
  · intro x hx
    simp only [decide_eq_true_eq] at hx
    simp only [decide_eq_true_eq]
    omega

theorem subSum_stable (l : List Entry) :
    ∀ (b : Nat) (p : List String) (f1 f2 : Nat), deeperCount l p ≤ b →
      deeperCount l p < f1 → deeperCount l p < f2 →
      subSum l f1 p = subSum l f2 p := by
  intro b
  induction b with
  | zero =>
    intro p f1 f2 hb h1 h2
    have hempty : l.filter (fun f => decide (parentOf f.path = some p)) = [] := by
      rw [List.filter_eq_nil]
      intro f hf hpar
      simp only [decide_eq_true_eq] at hpar
      have := deeperCount_child l p f hf hpar
      omega
    cases f1 with
    | zero => omega
    | succ g1 =>
      cases f2 with
      | zero => omega
      | succ g2 => simp [subSum, hempty]
  | succ b ih =>
    intro p f1 f2 hb h1 h2
    cases f1 with
    | zero => omega
    | succ g1 =>
      cases f2 with
      | zero => omega
      | succ g2 =>
        simp only [subSum]
        congr 1
        apply List.map_congr_left
        intro f hf
        rw [List.mem_filter] at hf
        obtain ⟨hfl, hfp⟩ := hf
        simp only [decide_eq_true_eq] at hfp
        by_cases hd : f.isDir = true
        · simp only [hd, if_true]
          congr 1
          have hc := deeperCount_child l p f hfl hfp
          exact ih f.path g1 g2 (by omega) (by omega) (by omega)
        · simp [hd]

theorem subSumC_unfold (l : List Entry) (p : List String) :
    subSumC l p =
      ((l.filter (fun f => decide (parentOf f.path = some p))).map
        (fun f => if f.isDir then f.size + subSumC l f.path
                  else f.size)).sum := by
  rw [subSumC]
  simp only [subSum]
  congr 1
  apply List.map_congr_left
  intro f hf
  rw [List.mem_filter] at hf
  obtain ⟨hfl, hfp⟩ := hf
  simp only [decide_eq_true_eq] at hfp
  by_cases hd : f.isDir = true
  · simp only [hd, if_true]
    congr 1
    have hc := deeperCount_child l p f hfl hfp
    exact subSum_stable l (deeperCount l f.path) f.path _ _ (Nat.le_refl _)
      (by omega) (by omega)
  · simp [hd]

theorem subSum_perm (l l' : List Entry) (h : List.Perm l l') :
    ∀ (fuel : Nat) (p : List String), subSum l fuel p = subSum l' fuel p := by
  intro fuel
  induction fuel with
  | zero => intro p; rfl
  | succ fuel ih =>
    intro p
    simp only [subSum]
    have h1 : (l.filter (fun f => decide (parentOf f.path = some p))).map
        (fun f => if f.isDir then f.size + subSum l fuel f.path else f.size) =
        (l.filter (fun f => decide (parentOf f.path = some p))).map
        (fun f => if f.isDir then f.size + subSum l' fuel f.path else f.size) := by
      apply List.map_congr_left
      intro f _
      by_cases hd : f.isDir = true
      · simp only [hd, if_true, ih f.path]
      · simp [hd]
    rw [h1]
    exact ((h.filter _).map _).sum_eq

theorem deeperCount_perm (l l' : List Entry) (h : List.Perm l l')
    (p : List String) : deeperCount l p = deeperCount l' p :=
  (h.filter _).length_eq

theorem subSumC_perm (l l' : List Entry) (h : List.Perm l l')
    (p : List String) : subSumC l p = subSumC l' p := by
  rw [subSumC, subSumC, deeperCount_perm l l' h p, subSum_perm l l' h]

theorem subSum_eq_fileOnly (l : List Entry)
    (h3 : ∀ f ∈ l, f.isDir = true → f.size = 0) :
    ∀ (fuel : Nat) (p : List String), subSum l fuel p = fileOnlySum l fuel p := by
  intro fuel
  induction fuel with
  | zero => intro p; rfl
  | succ fuel ih =>
    intro p
    simp only [subSum, fileOnlySum]
    congr 1
    apply List.map_congr_left
    intro f hf
    rw [List.mem_filter] at hf
    by_cases hd : f.isDir = true
    · simp only [hd, if_true, h3 f hf.1 hd, ih f.path, Nat.zero_add]
    · simp [hd]

/-- Split a filtered sum along a Boolean discriminator. -/
theorem sum_filter_split (l : List α) (P d : α → Bool) (F G : α → Nat) :
    ((l.filter P).map (fun x => if d x then F x else G x)).sum =
      ((l.filter (fun x => P x && !(d x))).map G).sum +
      ((l.filter (fun x => P x && d x)).map F).sum := by
  induction l with
  | nil => rfl
  | cons y ys ih =>
    rw [List.filter_cons, List.filter_cons, List.filter_cons]
    by_cases hP : P y = true
    · by_cases hd : d y = true <;>
        simp [hP, hd, ih] <;> omega
    · simp [hP, ih]

/-! ### Forward-pass characterization -/

/-- Position of the first entry of `A` whose path is `q`. -/
def entryIdx (A : List Entry) (q : List String) : Option Nat :=
  match A with
  | [] => none
  | f :: A' => if f.path = q then some 0 else (entryIdx A' q).map (· + 1)

/-- Arena indices the forward pass attaches, in processing order, to the
node at path `p`; entry number `m` of `X` has arena index `k + m`. -/
def attachIdxs (X : List Entry) (k : Nat) (p : List String) : List Nat :=
  match X with
  | [] => []
  | f :: X' =>
    (if parentOf f.path = some p then [k] else []) ++ attachIdxs X' (k + 1) p

theorem entryIdx_none_of_not_mem (A : List Entry) (q : List String)
    (h : q ∉ A.map (·.path)) : entryIdx A q = none := by
  induction A with
  | nil => rfl
  | cons f A' ih =>
    rw [List.map_cons] at h
    have h1 : f.path ≠ q := fun hc => h (by rw [hc]; exact List.mem_cons_self _ _)
    have h2 : q ∉ A'.map (·.path) := fun hc => h (List.mem_cons_of_mem _ hc)
    simp only [entryIdx, if_neg h1, ih h2, Option.map_none']

theorem entryIdx_append_some (A : List Entry) (e : Entry) (q : List String)
    (k : Nat) (h : entryIdx A q = some k) : entryIdx (A ++ [e]) q = some k := by
  induction A generalizing k with
  | nil => simp [entryIdx] at h
  | cons f A' ih =>
    simp only [entryIdx] at h
    by_cases hf : f.path = q
    · rw [if_pos hf] at h
      simp only [List.cons_append, entryIdx, if_pos hf]
      exact h
    · rw [if_neg hf] at h
      cases hk : entryIdx A' q with
      | none => rw [hk] at h; simp at h
      | some k' =>
        rw [hk] at h
        simp only [Option.map_some'] at h
        simp only [List.cons_append, List.append_eq, entryIdx, if_neg hf,
          ih k' hk, Option.map_some']
        exact h

theorem entryIdx_append_none (A : List Entry) (e : Entry) (q : List String)
    (h : entryIdx A q = none) :
    entryIdx (A ++ [e]) q =
      (if e.path = q then some A.length else none) := by
  induction A with
  | nil => simp [entryIdx]
  | cons f A' ih =>
    simp only [entryIdx] at h
    by_cases hf : f.path = q
    · rw [if_pos hf] at h; simp at h
    · rw [if_neg hf] at h
      have h' : entryIdx A' q = none := by
        cases hk : entryIdx A' q with
        | none => rfl
        | some k' => rw [hk] at h; simp at h
      simp only [List.cons_append, List.append_eq, entryIdx, if_neg hf, ih h']
      by_cases he : e.path = q <;> simp [he]

theorem entryIdx_get (A : List Entry) (q : List String) :
    ∀ k, entryIdx A q = some k → ∃ f, A.get? k = some f ∧ f.path = q := by
  induction A with
  | nil => intro k h; simp [entryIdx] at h
  | cons f A' ih =>
    intro k h
    simp only [entryIdx] at h
    by_cases hf : f.path = q
    · rw [if_pos hf] at h
      rw [← Option.some.inj h]
      exact ⟨f, rfl, hf⟩
    · rw [if_neg hf] at h
      cases hk : entryIdx A' q with
      | none => rw [hk] at h; simp at h
      | some k' =>
        rw [hk] at h
        simp only [Option.map_some'] at h
        obtain ⟨g, hg, hgq⟩ := ih k' hk
        rw [← Option.some.inj h]
        exact ⟨g, hg, hgq⟩

theorem get_entryIdx (A : List Entry) (hnd : (A.map (·.path)).Nodup) :
    ∀ (j : Nat) (f : Entry), A.get? j = some f →
      entryIdx A f.path = some j := by
  induction A with
  | nil => intro j f h; simp [List.get?] at h
  | cons g A' ih =>
    intro j f h
    rw [List.map_cons, List.nodup_cons] at hnd
    cases j with
    | zero =>
      have : g = f := Option.some.inj h
      subst this
      simp [entryIdx]
    | succ j' =>
      have hmem : f ∈ A' := List.get?_mem h
      have hne : g.path ≠ f.path := by
        intro hc
        exact hnd.1 (hc ▸ List.mem_map_of_mem (·.path) hmem)
      simp only [entryIdx, if_neg hne, ih hnd.2 j' f h, Option.map_some']

theorem attachIdxs_append (X : List Entry) (e : Entry) :
    ∀ (k : Nat) (p : List String),
      attachIdxs (X ++ [e]) k p =
        attachIdxs X k p ++
          (if parentOf e.path = some p then [k + X.length] else []) := by
  induction X with
  | nil =>
    intro k p
    simp [attachIdxs]
  | cons f X' ih =>
    intro k p
    simp only [List.cons_append, List.append_eq, attachIdxs, List.length_cons,
      List.append_assoc]
    by_cases hp : parentOf e.path = some p
    · have harith : k + 1 + X'.length = k + (X'.length + 1) := by omega
      rw [ih (k + 1) p, if_pos hp, if_pos hp, harith]
    · rw [ih (k + 1) p, if_neg hp, if_neg hp, List.append_nil]

theorem fileSum_append (A B : List Entry) (p : List String) :
    fileSum (A ++ B) p = fileSum A p + fileSum B p := by
  unfold fileSum
  rw [List.filter_append, List.map_append, List.sum_append]

theorem fileSum_single (e : Entry) (p : List String) :
    fileSum [e] p =
      (if parentOf e.path = some p then (if e.isDir then 0 else e.size)
       else 0) := by
  unfold fileSum
  by_cases hp : parentOf e.path = some p
  · by_cases hd : e.isDir = true <;> simp [hp, hd, List.filter]
  · simp [hp, List.filter]

/-- The node the forward pass leaves at index 0 after processing `A`. -/
def fwdRootNode (r : List String) (mt : Option Nat) (errC : Nat)
    (A : List Entry) : FileNode :=
  { name := lastComponent r, path := r, size := fileSum A r, isDir := true,
    children := attachIdxs A 1 r, errorCount := errC, modifiedTime := mt }

/-- The node the forward pass leaves at index `j + 1` for entry `A[j] = e`. -/
def fwdEntryNode (A : List Entry) (j : Nat) (e : Entry) : FileNode :=
  { name := lastComponent e.path, path := e.path,
    size := e.size + fileSum (A.drop (j + 1)) e.path, isDir := e.isDir,
    children := attachIdxs (A.drop (j + 1)) (j + 2) e.path, errorCount := 0,
    modifiedTime := e.mtime }

theorem addEntry_length (t : Tree) (e : Entry) :
    (addEntry t e).nodes.length = t.nodes.length + 1 := by
  unfold addEntry
  cases hp : parentOf e.path with
  | none => simp
  | some pp =>
    cases hl : lookupPath ((e.path, t.nodes.length) :: t.pathMap) pp with
    | none => simp [hl]
    | some pidx => simp [hl, updateAt_length]

/-- Build a tree from its two fields (used to state `addEntry` shapes). -/
def mkTree (ns : List FileNode) (pm : List (List String × Nat)) : Tree :=
  { nodes := ns, pathMap := pm }

/-- The mutation the forward pass applies to the parent node when a child
at arena index `idx` attaches. -/
def attachChild (idx : Nat) (e : Entry) (pn : FileNode) : FileNode :=
  { pn with children := pn.children ++ [idx],
            size := pn.size + (if e.isDir then 0 else e.size) }

theorem addEntry_shape_none (t : Tree) (e : Entry)
    (hp : parentOf e.path = none) :
    addEntry t e =
      mkTree (t.nodes ++ [entryNode e])
        ((e.path, t.nodes.length) :: t.pathMap) := by
  unfold addEntry
  rw [hp]
  rfl

theorem addEntry_shape_orphan (t : Tree) (e : Entry) (pp : List String)
    (hp : parentOf e.path = some pp)
    (hl : lookupPath ((e.path, t.nodes.length) :: t.pathMap) pp = none) :
    addEntry t e =
      mkTree (t.nodes ++ [entryNode e])
        ((e.path, t.nodes.length) :: t.pathMap) := by
  unfold addEntry
  rw [hp]
  simp only [hl]
  rfl

theorem addEntry_shape_attach (t : Tree) (e : Entry) (pp : List String)
    (pidx : Nat) (hp : parentOf e.path = some pp)
    (hl : lookupPath ((e.path, t.nodes.length) :: t.pathMap) pp = some pidx) :
    addEntry t e =
      mkTree (updateAt (t.nodes ++ [entryNode e]) pidx
          (attachChild t.nodes.length e))
        ((e.path, t.nodes.length) :: t.pathMap) := by
  unfold addEntry
  rw [hp]
  simp only [hl]
  rfl

theorem entryIdx_some_of_mem (A : List Entry) (q : List String)
    (h : q ∈ A.map (·.path)) : ∃ k, entryIdx A q = some k := by
  induction A with
  | nil => simp at h
  | cons f A' ih =>
    rw [List.map_cons] at h
    by_cases hf : f.path = q
    · exact ⟨0, by simp [entryIdx, hf]⟩
    · have h' : q ∈ A'.map (·.path) := by
        rcases List.mem_cons.mp h with h1 | h1
        · exact absurd h1.symm hf
        · exact h1
      obtain ⟨k, hk⟩ := ih h'
      exact ⟨k + 1, by simp [entryIdx, hf, hk]⟩

theorem nodup_path_ne (A : List Entry) (hnd : (A.map (·.path)).Nodup)
    (j k : Nat) (x y : Entry) (hj : A.get? j = some x) (hk : A.get? k = some y)
    (hjk : j ≠ k) : x.path ≠ y.path := by
  intro hc
  have h1 := get_entryIdx A hnd j x hj
  have h2 := get_entryIdx A hnd k y hk
  rw [hc] at h1
  rw [h1] at h2
  exact hjk (Option.some.inj h2)

theorem fwdRootNode_append_noattach (r : List String) (mt : Option Nat)
    (errC : Nat) (A : List Entry) (e : Entry)
    (hpr : parentOf e.path ≠ some r) :
    fwdRootNode r mt errC (A ++ [e]) = fwdRootNode r mt errC A := by
  unfold fwdRootNode
  rw [fileSum_append, fileSum_single, if_neg hpr, attachIdxs_append,
    if_neg hpr, List.append_nil]
  simp

theorem fwdRootNode_append_attach (r : List String) (mt : Option Nat)
    (errC : Nat) (A : List Entry) (e : Entry)
    (hpr : parentOf e.path = some r) :
    fwdRootNode r mt errC (A ++ [e]) =
      attachChild (A.length + 1) e (fwdRootNode r mt errC A) := by
  unfold fwdRootNode attachChild
  rw [fileSum_append, fileSum_single, if_pos hpr, attachIdxs_append,
    if_pos hpr]
  have h1 : 1 + A.length = A.length + 1 := by omega
  rw [h1]

theorem fwdEntryNode_append_noattach (A : List Entry) (e : Entry) (j : Nat)
    (e' : Entry) (hj : j < A.length)
    (hpe : parentOf e.path ≠ some e'.path) :
    fwdEntryNode (A ++ [e]) j e' = fwdEntryNode A j e' := by
  unfold fwdEntryNode
  rw [List.drop_append_of_le_length (by omega), fileSum_append,
    fileSum_single, if_neg hpe, attachIdxs_append, if_neg hpe,
    List.append_nil]
  simp

theorem fwdEntryNode_append_attach (A : List Entry) (e : Entry) (j : Nat)
    (e' : Entry) (hj : j < A.length)
    (hpe : parentOf e.path = some e'.path) :
    fwdEntryNode (A ++ [e]) j e' =
      attachChild (A.length + 1) e (fwdEntryNode A j e') := by
  unfold fwdEntryNode attachChild
  rw [List.drop_append_of_le_length (by omega), fileSum_append,
    fileSum_single, if_pos hpe, attachIdxs_append, if_pos hpe]
  have h1 : j + 2 + (A.drop (j + 1)).length = A.length + 1 := by
    rw [List.length_drop]
    omega
  simp only [h1]
  by_cases hd : e.isDir = true <;> simp [hd, Nat.add_assoc]

theorem fwdEntryNode_last (A : List Entry) (e : Entry) :
    fwdEntryNode (A ++ [e]) A.length e = entryNode e := by
  unfold fwdEntryNode entryNode FileNode.new
  have hdrop : (A ++ [e]).drop (A.length + 1) = [] := by
    have : (A ++ [e]).length = A.length + 1 := by simp
    rw [← this, List.drop_length]
  rw [hdrop]
  simp [fileSum, attachIdxs]

/-- Characterization of the forward pass: lengths, the path map, the root
node and every entry node after folding `addEntry` over an entry list with
distinct paths that avoid the root path. -/
theorem fwd_char (r : List String) (mt : Option Nat) (errC : Nat) :
    ∀ (A : List Entry), (A.map (·.path)).Nodup → (∀ f ∈ A, f.path ≠ r) →
      ((A.foldl addEntry (initTree r mt errC)).nodes.length = A.length + 1) ∧
      (∀ q, lookupPath (A.foldl addEntry (initTree r mt errC)).pathMap q =
        (if q = r then some 0 else (entryIdx A q).map (· + 1))) ∧
      ((A.foldl addEntry (initTree r mt errC)).nodes.get? 0 =
        some (fwdRootNode r mt errC A)) ∧
      (∀ j e, A.get? j = some e →
        (A.foldl addEntry (initTree r mt errC)).nodes.get? (j + 1) =
          some (fwdEntryNode A j e)) := by
  intro A
  induction A using List.reverseRecOn with
  | nil =>
    intro _ _
    refine ⟨rfl, ?_, ?_, ?_⟩
    · intro q
      simp only [List.foldl_nil, initTree, lookupPath, entryIdx]
      by_cases hq : q = r
      · rw [if_pos (by rw [hq]), if_pos hq]
      · rw [if_neg (fun hc => hq hc.symm), if_neg hq]
        rfl
    · rfl
    · intro j e h
      simp [List.get?] at h
  | append_singleton A e ih =>
    intro hnd' hr'
    rw [List.map_append] at hnd'
    have hndparts := List.nodup_append.mp hnd'
    have hndA : (A.map (·.path)).Nodup := hndparts.1
    have hepA : e.path ∉ A.map (·.path) := by
      intro hmem
      exact hndparts.2.2 hmem (by simp)
    have hrA : ∀ f ∈ A, f.path ≠ r :=
      fun f hf => hr' f (List.mem_append_left _ hf)
    have her : e.path ≠ r := hr' e (List.mem_append_right _ (by simp))
    obtain ⟨ihlen, ihmap, ihroot, ihent⟩ := ih hndA hrA
    have hidxA : entryIdx A e.path = none :=
      entryIdx_none_of_not_mem A e.path hepA
    set T := A.foldl addEntry (initTree r mt errC) with hTdef
    have hfold : (A ++ [e]).foldl addEntry (initTree r mt errC) =
        addEntry T e := by
      rw [List.foldl_append]
      rfl
    rw [hfold]
    have hmap' : ∀ q, lookupPath (addEntry T e).pathMap q =
        (if q = r then some 0 else (entryIdx (A ++ [e]) q).map (· + 1)) := by
      intro q
      rw [addEntry_lookup]
      by_cases hq : e.path = q
      · subst hq
        rw [if_pos rfl, if_neg her,
          entryIdx_append_none A e e.path hidxA, if_pos rfl, ihlen]
        rfl
      · rw [if_neg hq, ihmap q]
        by_cases hqr : q = r
        · rw [if_pos hqr, if_pos hqr]
        · rw [if_neg hqr, if_neg hqr]
          cases hk : entryIdx A q with
          | none =>
            rw [entryIdx_append_none A e q hk, if_neg hq]
          | some k => rw [entryIdx_append_some A e q k hk]
    have hlen' : (addEntry T e).nodes.length = (A ++ [e]).length + 1 := by
      rw [addEntry_length, ihlen]
      simp
    have hget0 : (T.nodes ++ [entryNode e]).get? 0 =
        some (fwdRootNode r mt errC A) := by
      rw [get?_append_left (by rw [ihlen]; omega)]
      exact ihroot
    have hgetJ : ∀ j e', A.get? j = some e' →
        (T.nodes ++ [entryNode e]).get? (j + 1) =
          some (fwdEntryNode A j e') := by
      intro j e' hj
      have hjlt : j < A.length := by
        by_contra hge
        rw [List.get?_eq_none.mpr (by omega)] at hj
        simp at hj
      rw [get?_append_left (by rw [ihlen]; omega)]
      exact ihent j e' hj
    have hgetNew : (T.nodes ++ [entryNode e]).get? (A.length + 1) =
        some (entryNode e) := by
      rw [← ihlen]
      exact List.get?_concat_length _ _
    have hsplit : ∀ j e', (A ++ [e]).get? j = some e' →
        (j < A.length ∧ A.get? j = some e') ∨ (j = A.length ∧ e' = e) :=
      fun j e' h => get?_append_cases A e j e' h
    refine ⟨hlen', hmap', ?_⟩
    cases hp : parentOf e.path with
    | none =>
      rw [addEntry_shape_none T e hp]
      constructor
      · show (T.nodes ++ [entryNode e]).get? 0 =
          some (fwdRootNode r mt errC (A ++ [e]))
        rw [fwdRootNode_append_noattach r mt errC A e
          (by rw [hp]; exact fun hc => Option.noConfusion hc)]
        exact hget0
      · intro j e' hj
        rcases hsplit j e' hj with ⟨hjlt, hjA⟩ | ⟨hjeq, hee⟩
        · show (T.nodes ++ [entryNode e]).get? (j + 1) =
            some (fwdEntryNode (A ++ [e]) j e')
          rw [fwdEntryNode_append_noattach A e j e' hjlt
            (by rw [hp]; exact fun hc => Option.noConfusion hc)]
          exact hgetJ j e' hjA
        · subst hjeq
          subst hee
          show (T.nodes ++ [entryNode e']).get? (A.length + 1) =
            some (fwdEntryNode (A ++ [e']) A.length e')
          rw [fwdEntryNode_last]
          exact hgetNew
    | some pp =>
      have hppne : e.path ≠ pp :=
        fun hc => (parentOf_ne e.path pp hp) hc.symm
      have hlkp : lookupPath ((e.path, T.nodes.length) :: T.pathMap) pp =
          lookupPath T.pathMap pp := by
        simp only [lookupPath, if_neg hppne]
      by_cases hpr : pp = r
      · subst hpr
        have hlk : lookupPath ((e.path, T.nodes.length) :: T.pathMap) pp =
            some 0 := by
          rw [hlkp, ihmap pp, if_pos rfl]
        rw [addEntry_shape_attach T e pp 0 hp hlk]
        constructor
        · show (updateAt (T.nodes ++ [entryNode e]) 0
            (attachChild T.nodes.length e)).get? 0 =
            some (fwdRootNode pp mt errC (A ++ [e]))
          rw [updateAt_get?_eq, hget0]
          simp only [Option.map_some']
          rw [fwdRootNode_append_attach pp mt errC A e hp, ihlen]
        · intro j e' hj
          rcases hsplit j e' hj with ⟨hjlt, hjA⟩ | ⟨hjeq, hee⟩
          · show (updateAt (T.nodes ++ [entryNode e]) 0
              (attachChild T.nodes.length e)).get? (j + 1) =
              some (fwdEntryNode (A ++ [e]) j e')
            rw [updateAt_get?_ne _ _ _ _ (by omega)]
            rw [fwdEntryNode_append_noattach A e j e' hjlt ?hner]
            · exact hgetJ j e' hjA
            case hner =>
              rw [hp]
              intro hc
              exact (hrA e' (List.get?_mem hjA)) (Option.some.inj hc).symm
          · subst hjeq
            subst hee
            show (updateAt (T.nodes ++ [entryNode e']) 0
              (attachChild T.nodes.length e')).get? (A.length + 1) =
              some (fwdEntryNode (A ++ [e']) A.length e')
            rw [updateAt_get?_ne _ _ _ _ (by omega)]
            rw [fwdEntryNode_last]
            exact hgetNew
      · have hmapPP : lookupPath T.pathMap pp =
            (entryIdx A pp).map (· + 1) := by
          rw [ihmap pp, if_neg hpr]
        cases hk : entryIdx A pp with
        | none =>
          have hlk : lookupPath ((e.path, T.nodes.length) :: T.pathMap) pp =
              none := by
            rw [hlkp, hmapPP, hk]
            rfl
          rw [addEntry_shape_orphan T e pp hp hlk]
          have hppnotA : pp ∉ A.map (·.path) := by
            intro hmem
            obtain ⟨k', hk'⟩ := entryIdx_some_of_mem A pp hmem
            rw [hk'] at hk
            exact Option.noConfusion hk
          constructor
          · show (T.nodes ++ [entryNode e]).get? 0 =
              some (fwdRootNode r mt errC (A ++ [e]))
            rw [fwdRootNode_append_noattach r mt errC A e
              (by rw [hp]; intro hc; exact hpr (Option.some.inj hc))]
            exact hget0
          · intro j e' hj
            rcases hsplit j e' hj with ⟨hjlt, hjA⟩ | ⟨hjeq, hee⟩
            · show (T.nodes ++ [entryNode e]).get? (j + 1) =
                some (fwdEntryNode (A ++ [e]) j e')
              rw [fwdEntryNode_append_noattach A e j e' hjlt ?hne2]
              · exact hgetJ j e' hjA
              case hne2 =>
                rw [hp]
                intro hc
                exact hppnotA ((Option.some.inj hc) ▸
                  List.mem_map_of_mem (·.path) (List.get?_mem hjA))
            · subst hjeq
              subst hee
              show (T.nodes ++ [entryNode e']).get? (A.length + 1) =
                some (fwdEntryNode (A ++ [e']) A.length e')
              rw [fwdEntryNode_last]
              exact hgetNew
        | some k =>
          have hlk : lookupPath ((e.path, T.nodes.length) :: T.pathMap) pp =
              some (k + 1) := by
            rw [hlkp, hmapPP, hk]
            rfl
          obtain ⟨g, hg, hgpp⟩ := entryIdx_get A pp k hk
          have hklt : k < A.length := by
            by_contra hge
            rw [List.get?_eq_none.mpr (by omega)] at hg
            simp at hg
          rw [addEntry_shape_attach T e pp (k + 1) hp hlk]
          constructor
          · show (updateAt (T.nodes ++ [entryNode e]) (k + 1)
              (attachChild T.nodes.length e)).get? 0 =
              some (fwdRootNode r mt errC (A ++ [e]))
            rw [updateAt_get?_ne _ _ _ _ (by omega)]
            rw [fwdRootNode_append_noattach r mt errC A e
              (by rw [hp]; intro hc; exact hpr (Option.some.inj hc))]
            exact hget0
          · intro j e' hj
            rcases hsplit j e' hj with ⟨hjlt, hjA⟩ | ⟨hjeq, hee⟩
            · by_cases hjk : j = k
              · subst hjk
                have heg : e' = g := by
                  rw [hjA] at hg
                  exact Option.some.inj hg
                show (updateAt (T.nodes ++ [entryNode e]) (j + 1)
                  (attachChild T.nodes.length e)).get? (j + 1) =
                  some (fwdEntryNode (A ++ [e]) j e')
                rw [updateAt_get?_eq, hgetJ j e' hjA]
                simp only [Option.map_some']
                have hpe' : parentOf e.path = some e'.path := by
                  rw [hp, heg, hgpp]
                rw [fwdEntryNode_append_attach A e j e' hjlt hpe', ihlen]
              · show (updateAt (T.nodes ++ [entryNode e]) (k + 1)
                  (attachChild T.nodes.length e)).get? (j + 1) =
                  some (fwdEntryNode (A ++ [e]) j e')
                rw [updateAt_get?_ne _ _ _ _ (by omega)]
                have hne3 : parentOf e.path ≠ some e'.path := by
                  rw [hp]
                  intro hc
                  have hppe : pp = e'.path := Option.some.inj hc
                  exact nodup_path_ne A hndA k j g e' hg hjA
                    (fun hc2 => hjk hc2.symm) (by rw [hgpp, hppe])
                rw [fwdEntryNode_append_noattach A e j e' hjlt hne3]
                exact hgetJ j e' hjA
            · subst hjeq
              subst hee
              show (updateAt (T.nodes ++ [entryNode e']) (k + 1)
                (attachChild T.nodes.length e')).get? (A.length + 1) =
                some (fwdEntryNode (A ++ [e']) A.length e')
              rw [updateAt_get?_ne _ _ _ _ (by omega)]
              rw [fwdEntryNode_last]
              exact hgetNew

/-! ### Reverse-pass characterization -/

theorem insertStable_sorted_depth (e : Entry) (l : List Entry)
    (h : l.Pairwise (fun a b => a.path.length ≤ b.path.length)) :
    (insertStable depthLt e l).Pairwise
      (fun a b => a.path.length ≤ b.path.length) := by
  induction l with
  | nil => simp [insertStable]
  | cons x xs ih =>
    rw [List.pairwise_cons] at h
    obtain ⟨hx, hxs⟩ := h
    by_cases hlt : depthLt x e = true
    · simp only [insertStable, hlt, if_true]
      rw [List.pairwise_cons]
      refine ⟨?_, ih hxs⟩
      intro y hy
      have hy' := (insertStable_perm depthLt e xs).mem_iff.mp hy
      rcases List.mem_cons.mp hy' with hye | hyx
      · subst hye
        have : x.path.length < y.path.length := by simpa [depthLt] using hlt
        omega
      · exact hx y hyx
    · rw [insertStable, if_neg hlt, List.pairwise_cons]
      have hxe : ¬ x.path.length < e.path.length := by
        simpa [depthLt] using hlt
      refine ⟨?_, ?_⟩
      · intro y hy
        rcases List.mem_cons.mp hy with hyx | hyxs
        · subst hyx; omega
        · have := hx y hyxs; omega
      · rw [List.pairwise_cons]
        exact ⟨hx, hxs⟩

/-- `sort_by` on path depth leaves a list that is non-decreasing in path
length. -/
theorem stableSort_sorted_depth (l : List Entry) :
    (stableSort depthLt l).Pairwise
      (fun a b => a.path.length ≤ b.path.length) := by
  induction l with
  | nil => exact List.Pairwise.nil
  | cons e es ih => exact insertStable_sorted_depth e _ ih

theorem drop_eq_cons {α : Type} :
    ∀ (L : List α) (m : Nat) (e : α), L.get? m = some e →
      L.drop m = e :: L.drop (m + 1) := by
  intro L
  induction L with
  | nil => intro m e h; simp [List.get?] at h
  | cons a L' ih =>
    intro m e h
    cases m with
    | zero =>
      have : a = e := Option.some.inj h
      subst this
      rfl
    | succ k => exact ih k e h

/-- Entries no deeper than the one at position `m` satisfy no predicate
that forces strictly greater depth: the prefix through `m` filters to
nothing. -/
theorem take_filter_empty (L : List Entry)
    (hs : L.Pairwise (fun a b => a.path.length ≤ b.path.length))
    (P : Entry → Bool) :
    ∀ (m : Nat) (e : Entry), L.get? m = some e →
      (∀ g, P g = true → e.path.length < g.path.length) →
      (L.take (m + 1)).filter P = [] := by
  induction L with
  | nil => intro m e h; simp [List.get?] at h
  | cons a L' ih =>
    intro m e h hP
    rw [List.pairwise_cons] at hs
    obtain ⟨ha, hL'⟩ := hs
    have haP : P a = false := by
      by_contra hc
      have haT : P a = true := by
        cases hPa : P a
        · exact absurd hPa hc
        · rfl
      cases m with
      | zero =>
        have : a = e := Option.some.inj h
        subst this
        exact absurd (hP a haT) (by omega)
      | succ k =>
        have hmem : e ∈ L' := List.get?_mem h
        have h1 := ha e hmem
        have h2 := hP a haT
        omega
    cases m with
    | zero =>
      have : a = e := Option.some.inj h
      subst this
      simp [List.filter, haP]
    | succ k =>
      rw [List.take_succ_cons, List.filter_cons]
      simp only [haP, Bool.false_eq_true, if_false]
      exact ih hL' k e h hP

/-- A predicate that forces strictly greater depth than the entry at
position `m` sees only entries after position `m`. -/
theorem filter_eq_drop (L : List Entry)
    (hs : L.Pairwise (fun a b => a.path.length ≤ b.path.length))
    (P : Entry → Bool) (m : Nat) (e : Entry) (hm : L.get? m = some e)
    (hP : ∀ g, P g = true → e.path.length < g.path.length) :
    L.filter P = (L.drop (m + 1)).filter P := by
  conv_lhs => rw [← List.take_append_drop (m + 1) L]
  rw [List.filter_append, take_filter_empty L hs P m e hm hP,
    List.nil_append]

/-- What the reverse pass has already added to the node at path `p` once
all entries from position `m` on have been processed: each processed
directory child contributes its (by then final) accumulated size. -/
def dirAccum (L : List Entry) (m : Nat) (p : List String) : Nat :=
  (((L.drop m).filter
      (fun g => decide (parentOf g.path = some p) && g.isDir)).map
    (fun g => g.size + subSumC L g.path)).sum

theorem dirAccum_ge (L : List Entry) (m : Nat) (p : List String)
    (h : L.length ≤ m) : dirAccum L m p = 0 := by
  unfold dirAccum
  rw [List.drop_eq_nil_of_le h]
  rfl

theorem dirAccum_step_skip (L : List Entry) (m : Nat) (e : Entry)
    (p : List String) (hm : L.get? m = some e)
    (h : ¬(parentOf e.path = some p ∧ e.isDir = true)) :
    dirAccum L m p = dirAccum L (m + 1) p := by
  unfold dirAccum
  rw [drop_eq_cons L m e hm, List.filter_cons]
  have hc : (decide (parentOf e.path = some p) && e.isDir) = false := by
    by_cases h1 : parentOf e.path = some p
    · by_cases h2 : e.isDir = true
      · exact absurd ⟨h1, h2⟩ h
      · simp [h2]
    · simp [h1]
  simp only [hc, Bool.false_eq_true, if_false]

theorem dirAccum_step_hit (L : List Entry) (m : Nat) (e : Entry)
    (p : List String) (hm : L.get? m = some e)
    (h1 : parentOf e.path = some p) (h2 : e.isDir = true) :
    dirAccum L m p = (e.size + subSumC L e.path) + dirAccum L (m + 1) p := by
  unfold dirAccum
  rw [drop_eq_cons L m e hm, List.filter_cons]
  have hc : (decide (parentOf e.path = some p) && e.isDir) = true := by
    simp [h1, h2]
  simp only [hc, if_true, List.map_cons, List.sum_cons]

/-- The direct-children split of the canonical subtree sum: file children
contribute their sizes, directory children their own subtree totals. -/
theorem subSumC_split (L : List Entry) (p : List String) :
    subSumC L p = fileSum L p + dirAccum L 0 p := by
  rw [subSumC_unfold,
    sum_filter_split L (fun f => decide (parentOf f.path = some p))
      (fun f => f.isDir) (fun f => f.size + subSumC L f.path) (fun f => f.size)]
  rfl

/-- Crux of the reverse induction: for the entry at position `m` in a
depth-sorted list, the file sizes collected in the forward pass plus what
the later (deeper) directory children have propagated equals the entry's
full subtree sum. -/
theorem processed_size (L : List Entry)
    (hs : L.Pairwise (fun a b => a.path.length ≤ b.path.length))
    (m : Nat) (e : Entry) (hm : L.get? m = some e) :
    fileSum (L.drop (m + 1)) e.path + dirAccum L (m + 1) e.path =
      subSumC L e.path := by
  have hchild : ∀ (g : Entry), parentOf g.path = some e.path →
      e.path.length < g.path.length := by
    intro g hg
    have := parentOf_length g.path e.path hg
    omega
  have hfile : fileSum L e.path = fileSum (L.drop (m + 1)) e.path := by
    unfold fileSum
    rw [← filter_eq_drop L hs _ m e hm]
    intro g hg
    rw [Bool.and_eq_true, decide_eq_true_eq] at hg
    exact hchild g hg.1
  have hdir : dirAccum L 0 e.path = dirAccum L (m + 1) e.path := by
    unfold dirAccum
    rw [List.drop_zero, ← filter_eq_drop L hs _ m e hm]
    intro g hg
    rw [Bool.and_eq_true, decide_eq_true_eq] at hg
    exact hchild g hg.1
  rw [← hfile, ← hdir, ← subSumC_split]

/-- The mutation the reverse pass applies to the parent of a propagated
directory. -/
def addSize (s : Nat) (pn : FileNode) : FileNode :=
  { pn with size := pn.size + s }

theorem propEntry_shape_file (t : Tree) (e : Entry)
    (hd : e.isDir = false) : propEntry t e = t := by
  unfold propEntry
  rw [hd]
  rfl

theorem propEntry_shape_noparent (t : Tree) (e : Entry) (idx : Nat)
    (node : FileNode) (hd : e.isDir = true)
    (hl : lookupPath t.pathMap e.path = some idx)
    (hn : t.nodes.get? idx = some node)
    (hp : parentOf e.path = none) : propEntry t e = t := by
  unfold propEntry
  rw [hd]
  simp only [hl, hn, hp, if_true]

theorem propEntry_shape_orphanparent (t : Tree) (e : Entry) (idx : Nat)
    (node : FileNode) (pp : List String) (hd : e.isDir = true)
    (hl : lookupPath t.pathMap e.path = some idx)
    (hn : t.nodes.get? idx = some node)
    (hp : parentOf e.path = some pp)
    (hpl : lookupPath t.pathMap pp = none) : propEntry t e = t := by
  unfold propEntry
  rw [hd]
  simp only [hl, hn, hp, hpl, if_true]

theorem propEntry_shape_update (t : Tree) (e : Entry) (idx : Nat)
    (node : FileNode) (pp : List String) (pidx : Nat) (hd : e.isDir = true)
    (hl : lookupPath t.pathMap e.path = some idx)
    (hn : t.nodes.get? idx = some node)
    (hp : parentOf e.path = some pp)
    (hpl : lookupPath t.pathMap pp = some pidx) :
    propEntry t e =
      withNodes t (updateAt t.nodes pidx (addSize node.size)) := by
  unfold propEntry
  rw [hd]
  simp only [hl, hn, hp, hpl, if_true]
  rfl

/-- The node the whole build leaves at index 0 once every entry from
position `m` on has been propagated. -/
def revRootNode (r : List String) (mt : Option Nat) (errC : Nat)
    (L : List Entry) (m : Nat) : FileNode :=
  { name := lastComponent r, path := r,
    size := fileSum L r + dirAccum L m r, isDir := true,
    children := attachIdxs L 1 r, errorCount := errC, modifiedTime := mt }

/-- The node the whole build leaves at index `j + 1` once every entry from
position `m` on has been propagated. -/
def revEntryNode (L : List Entry) (m j : Nat) (e : Entry) : FileNode :=
  { name := lastComponent e.path, path := e.path,
    size := e.size + fileSum (L.drop (j + 1)) e.path + dirAccum L m e.path,
    isDir := e.isDir,
    children := attachIdxs (L.drop (j + 1)) (j + 2) e.path,
    errorCount := 0, modifiedTime := e.mtime }

theorem revRootNode_init (r : List String) (mt : Option Nat) (errC : Nat)
    (L : List Entry) :
    revRootNode r mt errC L L.length = fwdRootNode r mt errC L := by
  unfold revRootNode fwdRootNode
  rw [dirAccum_ge L L.length r (Nat.le_refl _), Nat.add_zero]

theorem revEntryNode_init (L : List Entry) (j : Nat) (e : Entry) :
    revEntryNode L L.length j e = fwdEntryNode L j e := by
  unfold revEntryNode fwdEntryNode
  rw [dirAccum_ge L L.length e.path (Nat.le_refl _), Nat.add_zero]

/-- The tree state with the forward pass complete and the entries from
position `m` on propagated (in reverse order, deepest first). -/
def revTree (r : List String) (mt : Option Nat) (errC : Nat)
    (L : List Entry) (m : Nat) : Tree :=
  ((L.drop m).reverse).foldl propEntry (L.foldl addEntry (initTree r mt errC))

theorem buildTree_eq_revTree (r : List String) (mt : Option Nat)
    (errC : Nat) (es : List Entry) :
    buildTree r mt errC es = revTree r mt errC (stableSort depthLt es) 0 :=
  rfl

theorem revTree_top (r : List String) (mt : Option Nat) (errC : Nat)
    (L : List Entry) :
    revTree r mt errC L L.length =
      L.foldl addEntry (initTree r mt errC) := by
  unfold revTree
  rw [List.drop_eq_nil_of_le (Nat.le_refl _)]
  rfl

theorem revTree_step (r : List String) (mt : Option Nat) (errC : Nat)
    (L : List Entry) (m : Nat) (e : Entry) (hme : L.get? m = some e) :
    revTree r mt errC L m =
      propEntry (revTree r mt errC L (m + 1)) e := by
  unfold revTree
  rw [drop_eq_cons L m e hme, List.reverse_cons, List.foldl_append]
  rfl

theorem revRootNode_skip (r : List String) (mt : Option Nat) (errC : Nat)
    (L : List Entry) (m : Nat) (e : Entry) (hme : L.get? m = some e)
    (h : ¬(parentOf e.path = some r ∧ e.isDir = true)) :
    revRootNode r mt errC L m = revRootNode r mt errC L (m + 1) := by
  unfold revRootNode
  rw [dirAccum_step_skip L m e r hme h]

theorem revEntryNode_skip (L : List Entry) (m j : Nat) (f e : Entry)
    (hme : L.get? m = some e)
    (h : ¬(parentOf e.path = some f.path ∧ e.isDir = true)) :
    revEntryNode L m j f = revEntryNode L (m + 1) j f := by
  unfold revEntryNode
  rw [dirAccum_step_skip L m e f.path hme h]

theorem revEntrySize (L : List Entry)
    (hs : L.Pairwise (fun a b => a.path.length ≤ b.path.length))
    (m : Nat) (e : Entry) (hme : L.get? m = some e) :
    (revEntryNode L (m + 1) m e).size = e.size + subSumC L e.path := by
  show e.size + fileSum (L.drop (m + 1)) e.path +
    dirAccum L (m + 1) e.path = _
  rw [Nat.add_assoc, processed_size L hs m e hme]

theorem revRootNode_hit (r : List String) (mt : Option Nat) (errC : Nat)
    (L : List Entry)
    (hs : L.Pairwise (fun a b => a.path.length ≤ b.path.length))
    (m : Nat) (e : Entry) (hme : L.get? m = some e)
    (hp : parentOf e.path = some r) (hd : e.isDir = true) :
    addSize (revEntryNode L (m + 1) m e).size
        (revRootNode r mt errC L (m + 1)) =
      revRootNode r mt errC L m := by
  rw [revEntrySize L hs m e hme]
  unfold addSize revRootNode
  congr 1
  dsimp only
  rw [dirAccum_step_hit L m e r hme hp hd]
  omega

theorem revEntryNode_hit (L : List Entry)
    (hs : L.Pairwise (fun a b => a.path.length ≤ b.path.length))
    (m : Nat) (e : Entry) (k : Nat) (g : Entry)
    (hme : L.get? m = some e) (hgk : L.get? k = some g)
    (hp : parentOf e.path = some g.path) (hd : e.isDir = true) :
    addSize (revEntryNode L (m + 1) m e).size
        (revEntryNode L (m + 1) k g) =
      revEntryNode L m k g := by
  rw [revEntrySize L hs m e hme]
  unfold addSize revEntryNode
  congr 1
  dsimp only
  rw [dirAccum_step_hit L m e g.path hme hp hd]
  omega

/-- Characterization of the whole build after the reverse pass has
processed every entry from position `m` on: the path map is untouched and
every node carries its forward value plus the sizes propagated so far. -/
theorem rev_char (r : List String) (mt : Option Nat) (errC : Nat)
    (L : List Entry) (hnd : (L.map (·.path)).Nodup)
    (hnr : ∀ f ∈ L, f.path ≠ r)
    (hs : L.Pairwise (fun a b => a.path.length ≤ b.path.length)) :
    ∀ (d m : Nat), m + d = L.length →
      (revTree r mt errC L m).pathMap =
        (L.foldl addEntry (initTree r mt errC)).pathMap ∧
      (revTree r mt errC L m).nodes.length = L.length + 1 ∧
      (revTree r mt errC L m).nodes.get? 0 =
        some (revRootNode r mt errC L m) ∧
      (∀ j f, L.get? j = some f →
        (revTree r mt errC L m).nodes.get? (j + 1) =
          some (revEntryNode L m j f)) := by
  obtain ⟨flen, fmap, froot, fent⟩ := fwd_char r mt errC L hnd hnr
  intro d
  induction d with
  | zero =>
    intro m hm
    have hmL : m = L.length := by omega
    subst hmL
    rw [revTree_top]
    refine ⟨rfl, flen, ?_, ?_⟩
    · rw [froot, revRootNode_init]
    · intro j f hj
      rw [fent j f hj, revEntryNode_init]
  | succ d ih =>
    intro m hm
    have hmlt : m < L.length := by omega
    obtain ⟨e, hme⟩ : ∃ e, L.get? m = some e := by
      cases hg : L.get? m with
      | none => rw [List.get?_eq_none] at hg; omega
      | some e => exact ⟨e, rfl⟩
    obtain ⟨ihmap, ihlen, ihroot, ihent⟩ := ih (m + 1) (by omega)
    rw [revTree_step r mt errC L m e hme]
    set T := revTree r mt errC L (m + 1) with hT
    have hmemE : e ∈ L := List.get?_mem hme
    have herp : e.path ≠ r := hnr e hmemE
    have hlkE : lookupPath T.pathMap e.path = some (m + 1) := by
      rw [ihmap, fmap e.path, if_neg herp, get_entryIdx L hnd m e hme]
      rfl
    have hnE : T.nodes.get? (m + 1) = some (revEntryNode L (m + 1) m e) :=
      ihent m e hme
    cases hd : e.isDir with
    | false =>
      rw [propEntry_shape_file T e hd]
      have hsk : ∀ p, ¬(parentOf e.path = some p ∧ e.isDir = true) := by
        intro p hc
        rw [hd] at hc
        exact Bool.noConfusion hc.2
      refine ⟨ihmap, ihlen, ?_, ?_⟩
      · rw [ihroot, revRootNode_skip r mt errC L m e hme (hsk r)]
      · intro j f hj
        rw [ihent j f hj, revEntryNode_skip L m j f e hme (hsk f.path)]
    | true =>
      cases hp : parentOf e.path with
      | none =>
        rw [propEntry_shape_noparent T e (m + 1)
          (revEntryNode L (m + 1) m e) hd hlkE hnE hp]
        have hsk : ∀ p, ¬(parentOf e.path = some p ∧ e.isDir = true) := by
          intro p hc
          rw [hp] at hc
          exact Option.noConfusion hc.1
        refine ⟨ihmap, ihlen, ?_, ?_⟩
        · rw [ihroot, revRootNode_skip r mt errC L m e hme (hsk r)]
        · intro j f hj
          rw [ihent j f hj, revEntryNode_skip L m j f e hme (hsk f.path)]
      | some pp =>
        by_cases hpr : pp = r
        · subst hpr
          have hlkP : lookupPath T.pathMap pp = some 0 := by
            rw [ihmap, fmap pp, if_pos rfl]
          rw [propEntry_shape_update T e (m + 1)
            (revEntryNode L (m + 1) m e) pp 0 hd hlkE hnE hp hlkP]
          refine ⟨ihmap, ?_, ?_, ?_⟩
          · show (updateAt T.nodes 0 _).length = L.length + 1
            rw [updateAt_length, ihlen]
          · show (updateAt T.nodes 0
              (addSize (revEntryNode L (m + 1) m e).size)).get? 0 =
              some (revRootNode pp mt errC L m)
            rw [updateAt_get?_eq, ihroot]
            simp only [Option.map_some']
            rw [revRootNode_hit pp mt errC L hs m e hme hp hd]
          · intro j f hj
            show (updateAt T.nodes 0
              (addSize (revEntryNode L (m + 1) m e).size)).get? (j + 1) =
              some (revEntryNode L m j f)
            rw [updateAt_get?_ne _ _ _ _ (by omega), ihent j f hj,
              revEntryNode_skip L m j f e hme ?hskr]
            case hskr =>
              intro hc
              have := hp.symm.trans hc.1
              exact hnr f (List.get?_mem hj) (Option.some.inj this).symm
        · cases hk : entryIdx L pp with
          | none =>
            have hlkP : lookupPath T.pathMap pp = none := by
              rw [ihmap, fmap pp, if_neg hpr, hk]
              rfl
            rw [propEntry_shape_orphanparent T e (m + 1)
              (revEntryNode L (m + 1) m e) pp hd hlkE hnE hp hlkP]
            have hppnot : pp ∉ L.map (·.path) := by
              intro hmem
              obtain ⟨k', hk'⟩ := entryIdx_some_of_mem L pp hmem
              rw [hk'] at hk
              exact Option.noConfusion hk
            refine ⟨ihmap, ihlen, ?_, ?_⟩
            · rw [ihroot, revRootNode_skip r mt errC L m e hme ?hskr2]
              case hskr2 =>
                intro hc
                have := hp.symm.trans hc.1
                exact hpr (Option.some.inj this)
            · intro j f hj
              rw [ihent j f hj, revEntryNode_skip L m j f e hme ?hskf2]
              case hskf2 =>
                intro hc
                have := hp.symm.trans hc.1
                exact hppnot ((Option.some.inj this) ▸
                  List.mem_map_of_mem (·.path) (List.get?_mem hj))
          | some k =>
            obtain ⟨g, hgk, hgpp⟩ := entryIdx_get L pp k hk
            have hklt : k < L.length := by
              by_contra hge
              rw [List.get?_eq_none.mpr (by omega)] at hgk
              simp at hgk
            have hlkP : lookupPath T.pathMap pp = some (k + 1) := by
              rw [ihmap, fmap pp, if_neg hpr, hk]
              rfl
            rw [propEntry_shape_update T e (m + 1)
              (revEntryNode L (m + 1) m e) pp (k + 1) hd hlkE hnE hp hlkP]
            have hpg : parentOf e.path = some g.path := by
              rw [hp, hgpp]
            refine ⟨ihmap, ?_, ?_, ?_⟩
            · show (updateAt T.nodes (k + 1) _).length = L.length + 1
              rw [updateAt_length, ihlen]
            · show (updateAt T.nodes (k + 1)
                (addSize (revEntryNode L (m + 1) m e).size)).get? 0 =
                some (revRootNode r mt errC L m)
              rw [updateAt_get?_ne _ _ _ _ (by omega), ihroot,
                revRootNode_skip r mt errC L m e hme ?hskr3]
              case hskr3 =>
                intro hc
                have := hpg.symm.trans hc.1
                exact hnr g (List.get?_mem hgk) (Option.some.inj this)
            · intro j f hj
              by_cases hjk : j = k
              · subst hjk
                have hfg : f = g := by
                  rw [hj] at hgk
                  exact Option.some.inj hgk
                subst hfg
                show (updateAt T.nodes (j + 1)
                  (addSize (revEntryNode L (m + 1) m e).size)).get? (j + 1) =
                  some (revEntryNode L m j f)
                rw [updateAt_get?_eq, ihent j f hj]
                simp only [Option.map_some']
                rw [revEntryNode_hit L hs m e j f hme hj hpg hd]
              · show (updateAt T.nodes (k + 1)
                  (addSize (revEntryNode L (m + 1) m e).size)).get? (j + 1) =
                  some (revEntryNode L m j f)
                rw [updateAt_get?_ne _ _ _ _ (by omega), ihent j f hj,
                  revEntryNode_skip L m j f e hme ?hskf3]
                case hskf3 =>
                  intro hc
                  have := hpg.symm.trans hc.1
                  exact nodup_path_ne L hnd k j g f hgk hj
                    (fun hc2 => hjk hc2.symm) (Option.some.inj this)

theorem revEntrySize0 (L : List Entry)
    (hs : L.Pairwise (fun a b => a.path.length ≤ b.path.length))
    (j : Nat) (e : Entry) (hj : L.get? j = some e) :
    (revEntryNode L 0 j e).size = e.size + subSumC L e.path := by
  show e.size + fileSum (L.drop (j + 1)) e.path + dirAccum L 0 e.path = _
  have hchild : ∀ (g : Entry), parentOf g.path = some e.path →
      e.path.length < g.path.length := by
    intro g hg
    have := parentOf_length g.path e.path hg
    omega
  have hdir : dirAccum L 0 e.path = dirAccum L (j + 1) e.path := by
    unfold dirAccum
    rw [List.drop_zero, ← filter_eq_drop L hs _ j e hj]
    intro g hg
    rw [Bool.and_eq_true, decide_eq_true_eq] at hg
    exact hchild g hg.1
  rw [hdir, Nat.add_assoc, processed_size L hs j e hj]

/-- The observable the build leaves at the root path: size is the full
subtree sum, the error count is the walk-phase count. -/
theorem buildTree_root_char (r : List String) (mt : Option Nat)
    (errC : Nat) (es : List Entry) (hnd : (es.map (·.path)).Nodup)
    (hnr : ∀ f ∈ es, f.path ≠ r) :
    sizeAtPath (buildTree r mt errC es) r = some (subSumC es r) ∧
    errAtPath (buildTree r mt errC es) r = some errC := by
  set L := stableSort depthLt es with hL
  have hndL : (L.map (·.path)).Nodup :=
    ((stableSort_perm depthLt es).map (·.path)).nodup_iff.mpr hnd
  have hnrL : ∀ f ∈ L, f.path ≠ r :=
    fun f hf => hnr f ((mem_stableSort depthLt es f).mp hf)
  have hsL := stableSort_sorted_depth es
  obtain ⟨flen, fmap, froot, fent⟩ := fwd_char r mt errC L hndL hnrL
  obtain ⟨rmap, rlen, rroot, rent⟩ :=
    rev_char r mt errC L hndL hnrL hsL L.length 0 (by omega)
  have hlk : lookupPath (revTree r mt errC L 0).pathMap r = some 0 := by
    rw [rmap, fmap r, if_pos rfl]
  rw [buildTree_eq_revTree]
  constructor
  · unfold sizeAtPath
    rw [hlk]
    simp only [Option.some_bind, rroot, Option.map_some']
    show some ((revRootNode r mt errC L 0).size) = _
    have : (revRootNode r mt errC L 0).size =
        fileSum L r + dirAccum L 0 r := rfl
    rw [this, ← subSumC_split, subSumC_perm L es (stableSort_perm depthLt es)]
  · unfold errAtPath
    rw [hlk]
    simp only [Option.some_bind, rroot, Option.map_some']
    rfl

/-- The observable the build leaves at the path of an entry (the unique
one at that path): its recorded size plus its subtree sum; its error
count is zero. -/
theorem buildTree_entry_char (r : List String) (mt : Option Nat)
    (errC : Nat) (es : List Entry) (hnd : (es.map (·.path)).Nodup)
    (hnr : ∀ f ∈ es, f.path ≠ r) (q : List String) (e : Entry)
    (hfil : es.filter (fun f => decide (f.path = q)) = [e]) :
    sizeAtPath (buildTree r mt errC es) q = some (e.size + subSumC es q) ∧
    errAtPath (buildTree r mt errC es) q = some 0 := by
  set L := stableSort depthLt es with hL
  have hndL : (L.map (·.path)).Nodup :=
    ((stableSort_perm depthLt es).map (·.path)).nodup_iff.mpr hnd
  have hnrL : ∀ f ∈ L, f.path ≠ r :=
    fun f hf => hnr f ((mem_stableSort depthLt es f).mp hf)
  have hsL := stableSort_sorted_depth es
  obtain ⟨flen, fmap, froot, fent⟩ := fwd_char r mt errC L hndL hnrL
  obtain ⟨rmap, rlen, rroot, rent⟩ :=
    rev_char r mt errC L hndL hnrL hsL L.length 0 (by omega)
  have hmemf : e ∈ es.filter (fun f => decide (f.path = q)) := by
    rw [hfil]
    exact List.mem_singleton.mpr rfl
  have hmem : e ∈ es := List.mem_of_mem_filter hmemf
  have hq : e.path = q := by
    have := List.of_mem_filter hmemf
    simpa using this
  have hqr : q ≠ r := hq ▸ hnr e hmem
  have hfilL : L.filter (fun f => decide (f.path = q)) = [e] := by
    have hperm := (stableSort_perm depthLt es).filter
      (fun f => decide (f.path = q))
    rw [hfil] at hperm
    exact List.perm_singleton.mp hperm
  have hmemL : e ∈ L := (mem_stableSort depthLt es e).mpr hmem
  have hqm : q ∈ L.map (·.path) :=
    hq ▸ List.mem_map_of_mem (·.path) hmemL
  obtain ⟨j, hj⟩ := entryIdx_some_of_mem L q hqm
  obtain ⟨g, hgj, hgq⟩ := entryIdx_get L q j hj
  have hge : g = e := by
    have hgf : g ∈ L.filter (fun f => decide (f.path = q)) :=
      List.mem_filter.mpr ⟨List.get?_mem hgj, by simp [hgq]⟩
    rw [hfilL] at hgf
    exact List.mem_singleton.mp hgf
  subst hge
  have hlkq : lookupPath (revTree r mt errC L 0).pathMap q = some (j + 1) := by
    rw [rmap, fmap q, if_neg hqr, hj]
    rfl
  have hnode := rent j g hgj
  rw [buildTree_eq_revTree]
  constructor
  · unfold sizeAtPath
    rw [hlkq]
    simp only [Option.some_bind, hnode, Option.map_some']
    rw [revEntrySize0 L hsL j g hgj, hgq,
      subSumC_perm L es (stableSort_perm depthLt es)]
  · unfold errAtPath
    rw [hlkq]
    simp only [Option.some_bind, hnode, Option.map_some']
    rfl

/-- A path that is neither the root nor any entry's path gets no node. -/
theorem buildTree_absent_char (r : List String) (mt : Option Nat)
    (errC : Nat) (es : List Entry) (hnd : (es.map (·.path)).Nodup)
    (hnr : ∀ f ∈ es, f.path ≠ r) (q : List String) (hqr : q ≠ r)
    (hfil : es.filter (fun f => decide (f.path = q)) = []) :
    sizeAtPath (buildTree r mt errC es) q = none ∧
    errAtPath (buildTree r mt errC es) q = none := by
  set L := stableSort depthLt es with hL
  have hndL : (L.map (·.path)).Nodup :=
    ((stableSort_perm depthLt es).map (·.path)).nodup_iff.mpr hnd
  have hnrL : ∀ f ∈ L, f.path ≠ r :=
    fun f hf => hnr f ((mem_stableSort depthLt es f).mp hf)
  have hsL := stableSort_sorted_depth es
  obtain ⟨flen, fmap, froot, fent⟩ := fwd_char r mt errC L hndL hnrL
  obtain ⟨rmap, rlen, rroot, rent⟩ :=
    rev_char r mt errC L hndL hnrL hsL L.length 0 (by omega)
  have hfilL : L.filter (fun f => decide (f.path = q)) = [] := by
    have hperm := (stableSort_perm depthLt es).filter
      (fun f => decide (f.path = q))
    rw [hfil] at hperm
    exact hperm.eq_nil
  have hnotin : q ∉ L.map (·.path) := by
    intro hmem
    obtain ⟨f, hfL, hfq⟩ := List.mem_map.mp hmem
    have : f ∈ L.filter (fun f => decide (f.path = q)) :=
      List.mem_filter.mpr ⟨hfL, by simp [hfq]⟩
    rw [hfilL] at this
    exact absurd this (List.not_mem_nil f)
  have hidx : entryIdx L q = none := entryIdx_none_of_not_mem L q hnotin
  have hlkq : lookupPath (revTree r mt errC L 0).pathMap q = none := by
    rw [rmap, fmap q, if_neg hqr, hidx]
    rfl
  rw [buildTree_eq_revTree]
  constructor
  · unfold sizeAtPath
    rw [hlkq]
    rfl
  · unfold errAtPath
    rw [hlkq]
    rfl

theorem filter_path_cases (es : List Entry) (q : List String)
    (hnd : (es.map (·.path)).Nodup) :
    es.filter (fun f => decide (f.path = q)) = [] ∨
    ∃ e, es.filter (fun f => decide (f.path = q)) = [e] := by
  induction es with
  | nil => exact Or.inl rfl
  | cons a l ih =>
    rw [List.map_cons, List.nodup_cons] at hnd
    rw [List.filter_cons]
    by_cases ha : a.path = q
    · have hl : l.filter (fun f => decide (f.path = q)) = [] := by
        rw [List.filter_eq_nil]
        intro f hf hfq
        rw [decide_eq_true_eq] at hfq
        apply hnd.1
        rw [ha, ← hfq]
        exact List.mem_map_of_mem (·.path) hf
      refine Or.inr ⟨a, ?_⟩
      simp only [ha, decide_True, if_true, hl]
    · simp only [ha, decide_False, Bool.false_eq_true, if_false]
      exact ih hnd.2

/-- C2: building the tree from any two permutations of the same entry
set (distinct paths, none equal to the root path) yields the same size
and the same error count at every path. -/
theorem build_order_independence (r : List String) (mt : Option Nat)
    (errC : Nat) (es es' : List Entry) (hperm : List.Perm es es')
    (hnd : (es.map (·.path)).Nodup) (hnr : ∀ f ∈ es, f.path ≠ r)
    (q : List String) :
    sizeAtPath (buildTree r mt errC es) q =
      sizeAtPath (buildTree r mt errC es') q ∧
    errAtPath (buildTree r mt errC es) q =
      errAtPath (buildTree r mt errC es') q := by
  have hnd' : (es'.map (·.path)).Nodup := ((hperm.map (·.path)).nodup_iff).mp hnd
  have hnr' : ∀ f ∈ es', f.path ≠ r := fun f hf => hnr f (hperm.mem_iff.mpr hf)
  by_cases hqr : q = r
  · subst hqr
    obtain ⟨h1, h2⟩ := buildTree_root_char q mt errC es hnd hnr
    obtain ⟨h1', h2'⟩ := buildTree_root_char q mt errC es' hnd' hnr'
    rw [h1, h1', h2, h2', subSumC_perm es es' hperm]
    exact ⟨rfl, rfl⟩
  · rcases filter_path_cases es q hnd with hnil | ⟨e, hone⟩
    · have hnil' : es'.filter (fun f => decide (f.path = q)) = [] := by
        have hp := hperm.filter (fun f => decide (f.path = q))
        rw [hnil] at hp
        exact hp.symm.eq_nil
      obtain ⟨h1, h2⟩ := buildTree_absent_char r mt errC es hnd hnr q hqr hnil
      obtain ⟨h1', h2'⟩ :=
        buildTree_absent_char r mt errC es' hnd' hnr' q hqr hnil'
      rw [h1, h1', h2, h2']
      exact ⟨rfl, rfl⟩
    · have hone' : es'.filter (fun f => decide (f.path = q)) = [e] := by
        have hp := hperm.filter (fun f => decide (f.path = q))
        rw [hone] at hp
        exact List.perm_singleton.mp hp.symm
      obtain ⟨h1, h2⟩ := buildTree_entry_char r mt errC es hnd hnr q e hone
      obtain ⟨h1', h2'⟩ :=
        buildTree_entry_char r mt errC es' hnd' hnr' q e hone'
      rw [h1, h1', h2, h2', subSumC_perm es es' hperm]
      exact ⟨rfl, rfl⟩

/-! ### Direct-children sums of a freshly built tree (for the aggregate
invariant) -/

theorem attachIdxs_map_sum (X : List Entry) (p : List String)
    (F : Nat → Nat) (G : Entry → Nat) :
    ∀ (k : Nat), (∀ i e, X.get? i = some e → F (k + i) = G e) →
      ((attachIdxs X k p).map F).sum =
        ((X.filter (fun e => decide (parentOf e.path = some p))).map G).sum := by
  induction X with
  | nil => intro k _; rfl
  | cons e X' ih =>
    intro k h
    have hcompat : ∀ i e', X'.get? i = some e' → F (k + 1 + i) = G e' := by
      intro i e' hi
      have := h (i + 1) e' hi
      rw [show k + (i + 1) = k + 1 + i by omega] at this
      exact this
    have h0 : F k = G e := by
      have := h 0 e rfl
      rw [Nat.add_zero] at this
      exact this
    rw [List.filter_cons]
    by_cases hp : parentOf e.path = some p
    · simp only [attachIdxs, hp, if_pos, List.singleton_append, decide_True,
        if_true, List.map_cons, List.sum_cons, h0, ih (k + 1) hcompat]
    · simp only [attachIdxs, hp, decide_False, Bool.false_eq_true, if_false,
        List.nil_append, ih (k + 1) hcompat]

/-- If no entry lies strictly under `p`, the subtree sum under `p` is
zero. -/
theorem subSumC_leaf (L : List Entry) (p : List String)
    (h : ∀ g ∈ L, parentOf g.path ≠ some p) : subSumC L p = 0 := by
  rw [subSumC_unfold]
  have hnil : L.filter (fun f => decide (parentOf f.path = some p)) = [] := by
    rw [List.filter_eq_nil]
    intro g hg hgp
    rw [decide_eq_true_eq] at hgp
    exact h g hg hgp
  rw [hnil]
  rfl

/-- Under the scanner's shape (no entries beneath files), the per-child
summand of the subtree sum is uniformly `size + subtree import`. -/
theorem subSumC_children_uniform (L : List Entry) (p : List String)
    (hleaf : ∀ f ∈ L, f.isDir = false → ∀ g ∈ L,
      parentOf g.path ≠ some f.path) :
    subSumC L p =
      ((L.filter (fun e => decide (parentOf e.path = some p))).map
        (fun e => e.size + subSumC L e.path)).sum := by
  rw [subSumC_unfold]
  congr 1
  apply List.map_congr_left
  intro f hf
  rw [List.mem_filter] at hf
  cases hd : f.isDir with
  | true => simp [hd]
  | false =>
    have hz : subSumC L f.path = 0 :=
      subSumC_leaf L f.path (hleaf f hf.1 hd)
    simp [hd, hz]

/-- In a freshly built tree (scanner shape), the direct children of any
node sum to the subtree total under that node's path. -/
theorem buildTree_children_sum (r : List String) (mt : Option Nat)
    (errC : Nat) (es : List Entry) (hnd : (es.map (·.path)).Nodup)
    (hnr : ∀ f ∈ es, f.path ≠ r)
    (hleaf : ∀ f ∈ es, f.isDir = false → ∀ g ∈ es,
      parentOf g.path ≠ some f.path) :
    ∀ i, i < (buildTree r mt errC es).nodes.length →
      ((nodeAt (buildTree r mt errC es) i).children.map
        (fun c => (nodeAt (buildTree r mt errC es) c).size)).sum =
      subSumC es (nodeAt (buildTree r mt errC es) i).path := by
  set L := stableSort depthLt es with hL
  have hndL : (L.map (·.path)).Nodup :=
    ((stableSort_perm depthLt es).map (·.path)).nodup_iff.mpr hnd
  have hnrL : ∀ f ∈ L, f.path ≠ r :=
    fun f hf => hnr f ((mem_stableSort depthLt es f).mp hf)
  have hleafL : ∀ f ∈ L, f.isDir = false → ∀ g ∈ L,
      parentOf g.path ≠ some f.path := by
    intro f hf hfd g hg
    exact hleaf f ((mem_stableSort depthLt es f).mp hf) hfd g
      ((mem_stableSort depthLt es g).mp hg)
  have hsL := stableSort_sorted_depth es
  obtain ⟨rmap, rlen, rroot, rent⟩ :=
    rev_char r mt errC L hndL hnrL hsL L.length 0 (by omega)
  have hperm := stableSort_perm depthLt es
  rw [buildTree_eq_revTree]
  intro i hi
  rw [rlen] at hi
  cases i with
  | zero =>
    have hn0 : nodeAt (revTree r mt errC L 0) 0 =
        revRootNode r mt errC L 0 := by
      unfold nodeAt
      rw [rroot]
      rfl
    rw [hn0]
    show ((attachIdxs L 1 r).map
      (fun c => (nodeAt (revTree r mt errC L 0) c).size)).sum = subSumC es r
    rw [attachIdxs_map_sum L r _ (fun e => e.size + subSumC L e.path) 1 ?hc0,
      ← subSumC_children_uniform L r hleafL, subSumC_perm L es hperm]
    case hc0 =>
      intro i e hie
      have hre := rent i e hie
      have hcomm : 1 + i = i + 1 := by omega
      rw [hcomm]
      unfold nodeAt
      rw [hre]
      show (revEntryNode L 0 i e).size = _
      exact revEntrySize0 L hsL i e hie
  | succ j =>
    have hjlt : j < L.length := by omega
    obtain ⟨e, hje⟩ : ∃ e, L.get? j = some e := by
      cases hg : L.get? j with
      | none => rw [List.get?_eq_none] at hg; omega
      | some e => exact ⟨e, rfl⟩
    have hnj : nodeAt (revTree r mt errC L 0) (j + 1) =
        revEntryNode L 0 j e := by
      unfold nodeAt
      rw [rent j e hje]
      rfl
    rw [hnj]
    show ((attachIdxs (L.drop (j + 1)) (j + 2) e.path).map
      (fun c => (nodeAt (revTree r mt errC L 0) c).size)).sum =
      subSumC es e.path
    rw [attachIdxs_map_sum (L.drop (j + 1)) e.path _
      (fun g => g.size + subSumC L g.path) (j + 2) ?hc1]
    case hc1 =>
      intro i g hig
      rw [List.get?_drop] at hig
      have hre := rent (j + 1 + i) g hig
      have hcomm : j + 2 + i = j + 1 + i + 1 := by omega
      rw [hcomm]
      unfold nodeAt
      rw [hre]
      show (revEntryNode L 0 (j + 1 + i) g).size = _
      exact revEntrySize0 L hsL (j + 1 + i) g hig
    have hchild : ∀ (g : Entry),
        (fun x => decide (parentOf x.path = some e.path)) g = true →
        e.path.length < g.path.length := by
      intro g hg
      rw [decide_eq_true_eq] at hg
      have := parentOf_length g.path e.path hg
      omega
    rw [← filter_eq_drop L hsL _ j e hje hchild,
      ← subSumC_children_uniform L e.path hleafL, subSumC_perm L es hperm]

/-- C1 (amended): after a fresh build from scanner-shaped entries
(distinct paths, none equal to the root path, directories recorded with
size 0, no entries beneath non-directories), every directory node's size
equals the sum of its direct children's sizes, and the root's size is the
recursive total of the file sizes in the subtree.  The invariant is not
restored at ancestors of a refreshed node (see the counterexample). -/
theorem dir_size_invariant_fresh_build (r : List String) (mt : Option Nat)
    (errC : Nat) (es : List Entry) (hnd : (es.map (·.path)).Nodup)
    (hnr : ∀ f ∈ es, f.path ≠ r)
    (h0 : ∀ f ∈ es, f.isDir = true → f.size = 0)
    (hleaf : ∀ f ∈ es, f.isDir = false → ∀ g ∈ es,
      parentOf g.path ≠ some f.path) :
    (∀ i, i < (buildTree r mt errC es).nodes.length →
      (nodeAt (buildTree r mt errC es) i).isDir = true →
      (nodeAt (buildTree r mt errC es) i).size =
        ((nodeAt (buildTree r mt errC es) i).children.map
          (fun c => (nodeAt (buildTree r mt errC es) c).size)).sum) ∧
    (nodeAt (buildTree r mt errC es) 0).size =
      fileOnlySum es (deeperCount es r + 1) r := by
  have hcs := buildTree_children_sum r mt errC es hnd hnr hleaf
  set L := stableSort depthLt es with hL
  have hndL : (L.map (·.path)).Nodup :=
    ((stableSort_perm depthLt es).map (·.path)).nodup_iff.mpr hnd
  have hnrL : ∀ f ∈ L, f.path ≠ r :=
    fun f hf => hnr f ((mem_stableSort depthLt es f).mp hf)
  have hsL := stableSort_sorted_depth es
  obtain ⟨rmap, rlen, rroot, rent⟩ :=
    rev_char r mt errC L hndL hnrL hsL L.length 0 (by omega)
  have hperm := stableSort_perm depthLt es
  have hn0 : nodeAt (buildTree r mt errC es) 0 =
      revRootNode r mt errC L 0 := by
    rw [buildTree_eq_revTree]
    unfold nodeAt
    rw [rroot]
    rfl
  have hroot0 : (nodeAt (buildTree r mt errC es) 0).size = subSumC es r := by
    rw [hn0]
    show fileSum L r + dirAccum L 0 r = _
    rw [← subSumC_split, subSumC_perm L es hperm]
  constructor
  · intro i hi hdir
    rw [hcs i hi]
    cases i with
    | zero =>
      rw [hroot0, hn0]
      rfl
    | succ j =>
      have hjlt : j < L.length := by
        rw [buildTree_eq_revTree, rlen] at hi
        omega
      obtain ⟨e, hje⟩ : ∃ e, L.get? j = some e := by
        cases hg : L.get? j with
        | none => rw [List.get?_eq_none] at hg; omega
        | some e => exact ⟨e, rfl⟩
      have hnj : nodeAt (buildTree r mt errC es) (j + 1) =
          revEntryNode L 0 j e := by
        rw [buildTree_eq_revTree]
        unfold nodeAt
        rw [rent j e hje]
        rfl
      rw [hnj] at hdir ⊢
      have hed : e.isDir = true := hdir
      have hez : e.size = 0 :=
        h0 e ((mem_stableSort depthLt es e).mp (List.get?_mem hje)) hed
      show (revEntryNode L 0 j e).size = subSumC es e.path
      rw [revEntrySize0 L hsL j e hje, hez,
        subSumC_perm L es hperm, Nat.zero_add]
  · rw [hroot0]
    have := subSum_eq_fileOnly es h0 (deeperCount es r + 1) r
    rw [← this]
    rfl

/-! ### Concrete refresh scenario: a directory shrinks, the ancestor's
size goes stale -/

def cexEntryA : Entry := Entry.mk ["r", "a"] 0 true none

def cexEntryF : Entry := Entry.mk ["r", "a", "f"] 5 false none

def cexEntryF3 : Entry := Entry.mk ["r", "a", "f"] 3 false none

/-- The app after the initial scan of `r` (two entries: directory `a`
holding file `f` of size 5), with the view inside `a`. -/
def cexApp0 : App :=
  { tree := buildTree ["r"] none 0 [cexEntryA, cexEntryF], root := 0,
    currentNode := 1, pathHistory := [0], selected := some 0, args := (),
    statusMessage := none, showHelp := false, sortMode := SortMode.size,
    sortAscending := false }

/-- The app after refreshing `a` when `f` shrank to size 3. -/
def cexApp1 : App := App.refresh cexApp0 [cexEntryF3] 0 none

/-- C1 counterexample: after the refresh, the (directory) root node still
records size 5 while its direct children sum to 3 — the aggregate
invariant does not hold for ancestors of a refreshed node. -/
theorem refresh_stale_ancestor_cex :
    (nodeAt cexApp1.tree 0).isDir = true ∧
    (nodeAt cexApp1.tree 0).size ≠
      ((nodeAt cexApp1.tree 0).children.map
        (fun c => (nodeAt cexApp1.tree c).size)).sum := by
  constructor
  · decide
  · decide

/-! ### Concrete instantiations of the claim theorems -/

/-- An entry whose parent path was never recorded (C10's scenario). -/
def orphEntry : Entry := Entry.mk ["r", "x", "o"] 7 false none

/-- A freshly scanned app at the root of the two-entry example tree. -/
def navApp : App :=
  App.mk (buildTree ["r"] none 0 [cexEntryA, cexEntryF]) 0 0 [] (some 0) ()
    none false SortMode.size false

theorem dir_size_invariant_fresh_build_witness :
    (nodeAt (buildTree ["r"] none 0 [cexEntryA, cexEntryF]) 0).size =
      fileOnlySum [cexEntryA, cexEntryF]
        (deeperCount [cexEntryA, cexEntryF] ["r"] + 1) ["r"] :=
  (dir_size_invariant_fresh_build ["r"] none 0 [cexEntryA, cexEntryF]
    (by decide) (by decide) (by decide) (by decide)).2

theorem build_order_independence_witness :
    sizeAtPath (buildTree ["r"] none 0 [cexEntryA, cexEntryF]) ["r", "a"] =
      sizeAtPath (buildTree ["r"] none 0 [cexEntryF, cexEntryA]) ["r", "a"] :=
  (build_order_independence ["r"] none 0 [cexEntryA, cexEntryF]
    [cexEntryF, cexEntryA] (List.Perm.swap cexEntryF cexEntryA [])
    (by decide) (by decide) ["r", "a"]).1

theorem refresh_replaces_current_only_witness :
    (App.refresh cexApp0 [cexEntryF3] 0 none).currentNode =
      cexApp0.currentNode :=
  (refresh_replaces_current_only cexApp0 [cexEntryF3] 0 none (by decide)).1

theorem enter_then_up_round_trip_witness :
    (App.goUp (App.enterDir navApp)).currentNode = navApp.currentNode :=
  (enter_then_up_round_trip navApp 0 1 rfl (by decide) (by decide)).1

theorem toggle_same_twice_restores_witness :
    App.currentChildren
        (toggleOf SortMode.size (toggleOf SortMode.size navApp)) =
      App.currentChildren navApp :=
  (toggle_same_twice_restores navApp SortMode.size rfl rfl (by decide)).1

theorem page_ops_clamped_witness :
    0 < (App.currentChildren navApp).length :=
  (page_ops_clamped navApp (by
    intro i h
    rw [show navApp.selected = some 0 from rfl] at h
    rw [← Option.some.inj h]
    decide)).1 0 (by decide)

theorem orphan_entry_unreachable_witness :
    lookupPath (buildTree ["r"] none 0 [cexEntryA, orphEntry]).pathMap
      ["r", "x"] = none :=
  (orphan_entry_unreachable ["r"] none 0 [cexEntryA, orphEntry] orphEntry
    ["r", "x"] (by decide) (by decide) (by decide) (by decide) (by decide)).1

end Rdu
